import Mathlib

/-!
# Verification of the Cogniterm multi-agent orchestration core

A shallow embedding of the workflow-orchestration engine
(`src/main.py`, `MultiAgentOrchestrator.execute_request`) together with the
agent routines it drives (`PlannerAgent.plan_request`,
`CoderAgent.generate_code`, `DebuggerAgent.debug_code` and `_extract_json`,
`StepManager.validate_result`, `SummarizerAgent.generate_summary`).

JSON values are modelled by an inductive `Json` type.  Numbers are modelled
as integers (the workloads in the repository only exchange strings, booleans
and small structures; floating point is out of scope).  Python dictionaries
become insertion-ordered association lists; `obj` lookup returns the first
binding, matching a Python dict in which every key occurs once.

Python exceptions are modelled with `Except PyErr`; code paths that can
raise (`KeyError`, `TypeError`, `AttributeError`, `ValueError`) return
`Except.error`, while paths that Python executes without raising return
`Except.ok`.
-/

namespace Cogniterm

/-- JSON values as exchanged between the agents and the LLM oracle. -/
inductive Json where
  | null : Json
  | bool (b : Bool) : Json
  | num (n : Int) : Json
  | str (s : String) : Json
  | arr (xs : List Json) : Json
  | obj (kvs : List (String × Json)) : Json
  deriving Repr

mutual

/-- Structural equality test for `Json`, mirroring Python `==` on the
corresponding values. -/
def Json.beq : Json → Json → Bool
  | .null, .null => true
  | .bool a, .bool b => a == b
  | .num a, .num b => a == b
  | .str a, .str b => a == b
  | .arr a, .arr b => Json.beqList a b
  | .obj a, .obj b => Json.beqPairs a b
  | _, _ => false

/-- Elementwise equality of JSON arrays. -/
def Json.beqList : List Json → List Json → Bool
  | [], [] => true
  | a :: as, b :: bs => Json.beq a b && Json.beqList as bs
  | _, _ => false

/-- Elementwise equality of JSON object members. -/
def Json.beqPairs : List (String × Json) → List (String × Json) → Bool
  | [], [] => true
  | (k, v) :: as, (k', v') :: bs => k == k' && Json.beq v v' && Json.beqPairs as bs
  | _, _ => false

end

mutual

theorem Json.beq_iff : ∀ a b : Json, Json.beq a b = true ↔ a = b
  | .null, .null => by simp [Json.beq]
  | .null, .bool _ | .null, .num _ | .null, .str _ | .null, .arr _ | .null, .obj _ =>
      by simp [Json.beq]
  | .bool _, .null | .bool _, .num _ | .bool _, .str _ | .bool _, .arr _ | .bool _, .obj _ =>
      by simp [Json.beq]
  | .bool a, .bool b => by simp [Json.beq]
  | .num a, .num b => by simp [Json.beq]
  | .num _, .null | .num _, .bool _ | .num _, .str _ | .num _, .arr _ | .num _, .obj _ =>
      by simp [Json.beq]
  | .str a, .str b => by simp [Json.beq]
  | .str _, .null | .str _, .bool _ | .str _, .num _ | .str _, .arr _ | .str _, .obj _ =>
      by simp [Json.beq]
  | .arr a, .arr b => by
      simp only [Json.beq, Json.beqList_iff a b, Json.arr.injEq]
  | .arr _, .null | .arr _, .bool _ | .arr _, .num _ | .arr _, .str _ | .arr _, .obj _ =>
      by simp [Json.beq]
  | .obj a, .obj b => by
      simp only [Json.beq, Json.beqPairs_iff a b, Json.obj.injEq]
  | .obj _, .null | .obj _, .bool _ | .obj _, .num _ | .obj _, .str _ | .obj _, .arr _ =>
      by simp [Json.beq]

theorem Json.beqList_iff : ∀ a b : List Json, Json.beqList a b = true ↔ a = b
  | [], [] => by simp [Json.beqList]
  | [], _ :: _ => by simp [Json.beqList]
  | _ :: _, [] => by simp [Json.beqList]
  | a :: as, b :: bs => by
      simp [Json.beqList, Json.beq_iff a b, Json.beqList_iff as bs]

theorem Json.beqPairs_iff : ∀ a b : List (String × Json), Json.beqPairs a b = true ↔ a = b
  | [], [] => by simp [Json.beqPairs]
  | [], _ :: _ => by simp [Json.beqPairs]
  | _ :: _, [] => by simp [Json.beqPairs]
  | (k, v) :: as, (k', v') :: bs => by
      simp [Json.beqPairs, Json.beq_iff v v', Json.beqPairs_iff as bs, Prod.ext_iff,
        and_assoc]

end

instance : DecidableEq Json := fun a b =>
  decidable_of_iff (Json.beq a b = true) (Json.beq_iff a b)

/-- The Python exceptions that can escape the orchestration code. -/
inductive PyErr where
  | keyError (key : String) : PyErr
  | typeError : PyErr
  | attributeError : PyErr
  | valueError (msg : String) : PyErr
  deriving Repr, DecidableEq

/-- First binding of `k` in an association list, i.e. lookup in a Python
dict whose keys are pairwise distinct. -/
def getKey (kvs : List (String × Json)) (k : String) : Option Json :=
  (kvs.find? (fun kv => kv.1 = k)).map (·.2)

/-- Python truthiness of a JSON value (`if is_valid:`). -/
def pyTruthy : Json → Bool
  | .null => false
  | .bool b => b
  | .num n => n ≠ 0
  | .str s => s ≠ ""
  | .arr xs => xs ≠ []
  | .obj kvs => kvs ≠ []

/-- Python `value[k]` for a string key: succeeds only on a dict containing
the key (`KeyError` when absent, `TypeError` on non-dict values). -/
def pyGetItem : Json → String → Except PyErr Json
  | .obj kvs, k =>
      match getKey kvs k with
      | some v => .ok v
      | none => .error (.keyError k)
  | _, _ => .error .typeError

/-- Python `value.get(k, default)`: defined on dicts, `AttributeError`
otherwise. -/
def pyDictGet : Json → String → Json → Except PyErr Json
  | .obj kvs, k, d => .ok ((getKey kvs k).getD d)
  | _, _, _ => .error .attributeError

/-- Python `dict.setdefault(k, v)` on an insertion-ordered dict: appends
the binding only when the key is absent. -/
def pySetDefault (kvs : List (String × Json)) (k : String) (v : Json) :
    List (String × Json) :=
  match getKey kvs k with
  | some _ => kvs
  | none => kvs ++ [(k, v)]

/-- Python iteration (`for p in value`): lists yield their elements,
strings their characters, dicts their keys; other values raise
`TypeError`. -/
def pyIter : Json → Except PyErr (List Json)
  | .arr xs => .ok xs
  | .str s => .ok (s.data.map (fun c => Json.str (String.mk [c])))
  | .obj kvs => .ok (kvs.map (fun kv => Json.str kv.1))
  | _ => .error .typeError

/-! ## Serialization (the JSON text the oracle's answers are written in)

`serialize` mirrors the standard single-line JSON rendering used by the
Python `json` module (separators `", "` and `": "`, strings quoted with
`"` / `\` / control characters escaped).  It is the reference encoding for
round-trip statements about `_extract_json`. -/

/-- Decimal digits of a natural number, most significant first. -/
def serNat (n : Nat) : List Char :=
  if h : n < 10 then [Char.ofNat (48 + n)]
  else serNat (n / 10) ++ [Char.ofNat (48 + n % 10)]
  decreasing_by exact Nat.div_lt_self (by omega) (by omega)

/-- Decimal rendering of an integer, as printed by Python. -/
def serInt (n : Int) : List Char :=
  if n < 0 then '-' :: serNat n.natAbs else serNat n.natAbs

/-- Upper-case hexadecimal digit. -/
def hexDigit (n : Nat) : Char :=
  if n < 10 then Char.ofNat (48 + n) else Char.ofNat (55 + n)

/-- JSON string-body escaping: quote, backslash and the common control
characters get two-character escapes, all other control characters get a
`\u00XX` escape, everything else is copied verbatim. -/
def escapeChar (c : Char) : List Char :=
  if c = '"' then ['\\', '"']
  else if c = '\\' then ['\\', '\\']
  else if c = '\n' then ['\\', 'n']
  else if c = '\t' then ['\\', 't']
  else if c = '\r' then ['\\', 'r']
  else if c = Char.ofNat 8 then ['\\', 'b']
  else if c = Char.ofNat 12 then ['\\', 'f']
  else if c.toNat < 32 then
    ['\\', 'u', '0', '0', hexDigit (c.toNat / 16), hexDigit (c.toNat % 16)]
  else [c]

/-- Escape a whole string body. -/
def escapeStr (cs : List Char) : List Char :=
  cs.flatMap escapeChar

mutual

/-- Single-line JSON rendering of a value (Python `json.dumps`). -/
def serialize : Json → List Char
  | .num n => serInt n
  | .str s => '"' :: escapeStr s.data ++ ['"']
  | .bool b => if b then ['t', 'r', 'u', 'e'] else ['f', 'a', 'l', 's', 'e']
  | .null => ['n', 'u', 'l', 'l']
  | .arr [] => ['[', ']']
  | .arr (x :: xs) => '[' :: serialize x ++ serializeElems xs ++ [']']
  | .obj [] => ['{', '}']
  | .obj (kv :: kvs) => '{' :: serializeMember kv ++ serializeMembers kvs ++ ['}']

/-- Remaining array elements, each preceded by `", "`. -/
def serializeElems : List Json → List Char
  | [] => []
  | x :: xs => ',' :: ' ' :: serialize x ++ serializeElems xs

/-- One object member `"key": value`. -/
def serializeMember : String × Json → List Char
  | (k, v) => '"' :: escapeStr k.data ++ '"' :: ':' :: ' ' :: serialize v

/-- Remaining object members, each preceded by `", "`. -/
def serializeMembers : List (String × Json) → List Char
  | [] => []
  | kv :: kvs => ',' :: ' ' :: serializeMember kv ++ serializeMembers kvs

end

/-! ## Parsing (the model of Python `json.loads`)

A recursive-descent parser over character lists.  `parseValue` takes a
fuel argument; `parseJsonList` supplies `length + 1` fuel, which is proved
sufficient for every serialized value.  Like `json.loads`, the top level
tolerates surrounding JSON whitespace but rejects any other leading or
trailing text, and raw control characters inside string literals are
rejected. -/

/-- The whitespace characters skipped by the JSON grammar. -/
def isJsonWs (c : Char) : Bool :=
  c = ' ' || c = '\t' || c = '\n' || c = '\r'

/-- Skip JSON whitespace. -/
def dropJsonWs (cs : List Char) : List Char :=
  cs.dropWhile isJsonWs

/-- ASCII decimal digit test. -/
def isDigitChar (c : Char) : Bool :=
  48 ≤ c.toNat && c.toNat ≤ 57

/-- Value of a decimal digit. -/
def digitVal (c : Char) : Nat := c.toNat - 48

/-- Value of a hexadecimal digit, upper or lower case. -/
def hexVal? (c : Char) : Option Nat :=
  if 48 ≤ c.toNat ∧ c.toNat ≤ 57 then some (c.toNat - 48)
  else if 65 ≤ c.toNat ∧ c.toNat ≤ 70 then some (c.toNat - 55)
  else if 97 ≤ c.toNat ∧ c.toNat ≤ 102 then some (c.toNat - 87)
  else none

/-- Two-character string escapes. -/
def unescape? : Char → Option Char
  | 'n' => some '\n'
  | 't' => some '\t'
  | 'r' => some '\r'
  | 'b' => some (Char.ofNat 8)
  | 'f' => some (Char.ofNat 12)
  | '"' => some '"'
  | '\\' => some '\\'
  | '/' => some '/'
  | _ => none

/-- Parse the body of a string literal after the opening quote; returns the
decoded characters and the input following the closing quote. -/
def parseStringBody : List Char → Option (List Char × List Char)
  | [] => none
  | c :: cs =>
    if c = '"' then some ([], cs)
    else if c = '\\' then
      match cs with
      | 'u' :: h1 :: h2 :: h3 :: h4 :: r =>
          match hexVal? h1, hexVal? h2, hexVal? h3, hexVal? h4 with
          | some a, some b, some c', some d =>
              (parseStringBody r).map (fun p =>
                (Char.ofNat (((a * 16 + b) * 16 + c') * 16 + d) :: p.1, p.2))
          | _, _, _, _ => none
      | e :: r =>
          match unescape? e with
          | some c' => (parseStringBody r).map (fun p => (c' :: p.1, p.2))
          | none => none
      | [] => none
    else if c.toNat < 32 then none
    else (parseStringBody cs).map (fun p => (c :: p.1, p.2))
  termination_by cs => cs.length
  decreasing_by all_goals simp_arith [List.length]

/-- Accumulate a run of decimal digits. -/
def parseDigitsAux (acc : Nat) : List Char → Nat × List Char
  | [] => (acc, [])
  | c :: cs =>
    if isDigitChar c then parseDigitsAux (acc * 10 + digitVal c) cs
    else (acc, c :: cs)

/-- Parse an integer literal (optional minus sign, then digits). -/
def parseNumber : List Char → Option (Int × List Char)
  | [] => none
  | c :: cs =>
    if c = '-' then
      match cs with
      | [] => none
      | d :: ds =>
          if isDigitChar d then
            let p := parseDigitsAux 0 (d :: ds)
            some (-(p.1 : Int), p.2)
          else none
    else if isDigitChar c then
      let p := parseDigitsAux 0 (c :: cs)
      some ((p.1 : Int), p.2)
    else none

mutual

/-- Parse one JSON value (after skipping leading whitespace). -/
def parseValue : Nat → List Char → Option (Json × List Char)
  | 0, _ => none
  | fuel + 1, cs =>
    match dropJsonWs cs with
    | 'n' :: 'u' :: 'l' :: 'l' :: rest => some (.null, rest)
    | 't' :: 'r' :: 'u' :: 'e' :: rest => some (.bool true, rest)
    | 'f' :: 'a' :: 'l' :: 's' :: 'e' :: rest => some (.bool false, rest)
    | '"' :: rest =>
        (parseStringBody rest).map (fun p => (.str (String.mk p.1), p.2))
    | '[' :: rest =>
        (match dropJsonWs rest with
        | ']' :: r => some (.arr [], r)
        | cs' =>
            (parseElems fuel cs').map (fun p => (.arr p.1, p.2)))
    | '{' :: rest =>
        (match dropJsonWs rest with
        | '}' :: r => some (.obj [], r)
        | cs' =>
            (parseMembers fuel cs').map (fun p => (.obj p.1, p.2)))
    | cs' => (parseNumber cs').map (fun p => (.num p.1, p.2))

/-- Parse the elements of a non-empty array, including the closing `]`. -/
def parseElems : Nat → List Char → Option (List Json × List Char)
  | 0, _ => none
  | fuel + 1, cs => do
    let (v, rest) ← parseValue fuel cs
    match dropJsonWs rest with
    | ',' :: r => (parseElems fuel r).map (fun p => (v :: p.1, p.2))
    | ']' :: r => some ([v], r)
    | _ => none

/-- Parse the members of a non-empty object, including the closing `}`. -/
def parseMembers : Nat → List Char → Option (List (String × Json) × List Char)
  | 0, _ => none
  | fuel + 1, cs =>
    match dropJsonWs cs with
    | '"' :: rest => do
        let (kcs, r1) ← parseStringBody rest
        match dropJsonWs r1 with
        | ':' :: r2 => do
            let (v, r3) ← parseValue fuel r2
            match dropJsonWs r3 with
            | ',' :: r4 => (parseMembers fuel r4).map (fun p => ((String.mk kcs, v) :: p.1, p.2))
            | '}' :: r4 => some ([(String.mk kcs, v)], r4)
            | _ => none
        | _ => none
    | _ => none

end

/-- Model of `json.loads` on a character list: parse one value with enough
fuel and require only whitespace to remain. -/
def parseJsonList (cs : List Char) : Option Json :=
  match parseValue (cs.length + 1) cs with
  | some (v, rest) => if dropJsonWs rest = [] then some v else none
  | none => none

/-- Model of `json.loads` on a string. -/
def parseJson (s : String) : Option Json :=
  parseJsonList s.data

/-! ## Round-trip facts: the parser inverts the serializer -/

theorem serNat_of_lt {n : Nat} (h : n < 10) : serNat n = [Char.ofNat (48 + n)] := by
  rw [serNat]; simp [h]

theorem serNat_of_ge {n : Nat} (h : ¬ n < 10) :
    serNat n = serNat (n / 10) ++ [Char.ofNat (48 + n % 10)] := by
  rw [serNat]; simp [h]

theorem toNat_ofNat_digit {n : Nat} (h : n < 10) : (Char.ofNat (48 + n)).toNat = 48 + n := by
  have : Nat.isValidChar (48 + n) := Or.inl (by omega)
  simp [Char.ofNat, this, Char.ofNatAux, Char.toNat, UInt32.toNat]

theorem isDigitChar_ofNat {n : Nat} (h : n < 10) :
    isDigitChar (Char.ofNat (48 + n)) = true := by
  simp [isDigitChar, toNat_ofNat_digit h]; omega

theorem digitVal_ofNat {n : Nat} (h : n < 10) :
    digitVal (Char.ofNat (48 + n)) = n := by
  simp [digitVal, toNat_ofNat_digit h]

theorem serNat_ne_nil (n : Nat) : serNat n ≠ [] := by
  by_cases h : n < 10
  · simp [serNat_of_lt h]
  · simp [serNat_of_ge h]

theorem serNat_head_digit (n : Nat) :
    ∃ c t, serNat n = c :: t ∧ isDigitChar c = true := by
  induction n using Nat.strong_induction_on with
  | _ n ih =>
    by_cases h : n < 10
    · exact ⟨_, _, serNat_of_lt h, isDigitChar_ofNat h⟩
    · obtain ⟨c, t, hc, hd⟩ := ih (n / 10) (Nat.div_lt_self (by omega) (by omega))
      exact ⟨c, t ++ [Char.ofNat (48 + n % 10)], by rw [serNat_of_ge h, hc]; simp, hd⟩

theorem parseDigitsAux_stop {rest : List Char}
    (h : ∀ c, rest.head? = some c → isDigitChar c = false) (acc : Nat) :
    parseDigitsAux acc rest = (acc, rest) := by
  cases rest with
  | nil => rfl
  | cons c cs => simp [parseDigitsAux, h c rfl]

theorem parseDigitsAux_serNat (n : Nat) :
    ∀ acc rest, parseDigitsAux acc (serNat n ++ rest) =
      parseDigitsAux (acc * 10 ^ (serNat n).length + n) rest := by
  induction n using Nat.strong_induction_on with
  | _ n ih =>
    intro acc rest
    by_cases h : n < 10
    · rw [serNat_of_lt h]
      simp [parseDigitsAux, isDigitChar_ofNat h, digitVal_ofNat h]
    · rw [serNat_of_ge h]
      have hd : n / 10 < n := Nat.div_lt_self (by omega) (by omega)
      rw [List.append_assoc, ih (n / 10) hd acc _, List.singleton_append]
      have h10 : n % 10 < 10 := Nat.mod_lt _ (by omega)
      simp only [parseDigitsAux, isDigitChar_ofNat h10, if_pos, digitVal_ofNat h10,
        List.length_append, List.length_singleton]
      have harith : (acc * 10 ^ (serNat (n / 10)).length + n / 10) * 10 + n % 10 =
          acc * 10 ^ ((serNat (n / 10)).length + 1) + n := by
        rw [pow_succ, ← Nat.mul_assoc]
        omega
      rw [harith]

theorem parseNumber_serNat {rest : List Char}
    (h : ∀ c, rest.head? = some c → isDigitChar c = false) (n : Nat) :
    parseNumber (serNat n ++ rest) = some ((n : Int), rest) := by
  obtain ⟨c, t, hc, hd⟩ := serNat_head_digit n
  have hcm : c ≠ '-' := by
    rintro rfl; simp [isDigitChar] at hd
  rw [hc, List.cons_append]
  have : parseDigitsAux 0 (c :: (t ++ rest)) = (n, rest) := by
    have := parseDigitsAux_serNat n 0 rest
    rw [hc] at this
    simpa [parseDigitsAux_stop h] using this
  simp [parseNumber, hcm, hd, this]

theorem parseNumber_serInt {rest : List Char}
    (h : ∀ c, rest.head? = some c → isDigitChar c = false) (n : Int) :
    parseNumber (serInt n ++ rest) = some (n, rest) := by
  by_cases hn : n < 0
  · have habs : -(n.natAbs : Int) = n := by omega
    obtain ⟨c, t, hc, hd⟩ := serNat_head_digit n.natAbs
    have hrun : parseDigitsAux 0 (serNat n.natAbs ++ rest) = (n.natAbs, rest) := by
      simpa [parseDigitsAux_stop h] using parseDigitsAux_serNat n.natAbs 0 rest
    rw [serInt, if_pos hn]
    rw [hc] at hrun ⊢
    simp only [List.cons_append, List.nil_append] at hrun ⊢
    simp [parseNumber, hd, hrun, habs]
    rw [abs_of_neg hn, neg_neg]
  · rw [serInt, if_neg hn]
    have habs : (n.natAbs : Int) = n := by omega
    rw [parseNumber_serNat h n.natAbs, habs]

theorem hexVal?_hexDigit {d : Nat} (h : d < 16) : hexVal? (hexDigit d) = some d := by
  interval_cases d <;> decide

theorem parseStringBody_escape (s : List Char) (rest : List Char) :
    parseStringBody (escapeStr s ++ '"' :: rest) = some (s, rest) := by
  induction s with
  | nil =>
    rw [show escapeStr [] ++ '"' :: rest = '"' :: rest by simp [escapeStr]]
    rw [parseStringBody.eq_def]
    simp
  | cons c cs ih =>
    have hstep : escapeStr (c :: cs) = escapeChar c ++ escapeStr cs := by
      simp [escapeStr]
    rw [hstep, List.append_assoc]
    by_cases h1 : c = '"'
    · subst h1
      simp only [escapeChar, if_pos rfl, List.cons_append, List.nil_append]
      rw [parseStringBody.eq_def]
      simp [unescape?, ih]
    by_cases h2 : c = '\\'
    · subst h2
      simp only [escapeChar, if_pos rfl, if_neg (by decide : ¬('\\' : Char) = '"'),
        List.cons_append, List.nil_append]
      rw [parseStringBody.eq_def]
      simp [unescape?, ih]
    by_cases h3 : c = '\n'
    · subst h3
      rw [show escapeChar '\n' = ['\\', 'n'] by rfl]
      simp only [List.cons_append, List.nil_append]
      rw [parseStringBody.eq_def]
      simp [unescape?, ih]
    by_cases h4 : c = '\t'
    · subst h4
      rw [show escapeChar '\t' = ['\\', 't'] by rfl]
      simp only [List.cons_append, List.nil_append]
      rw [parseStringBody.eq_def]
      simp [unescape?, ih]
    by_cases h5 : c = '\r'
    · subst h5
      rw [show escapeChar '\r' = ['\\', 'r'] by rfl]
      simp only [List.cons_append, List.nil_append]
      rw [parseStringBody.eq_def]
      simp [unescape?, ih]
    by_cases h6 : c = Char.ofNat 8
    · subst h6
      rw [show escapeChar (Char.ofNat 8) = ['\\', 'b'] by rfl]
      simp only [List.cons_append, List.nil_append]
      rw [parseStringBody.eq_def]
      simp [unescape?, ih]
    by_cases h7 : c = Char.ofNat 12
    · subst h7
      rw [show escapeChar (Char.ofNat 12) = ['\\', 'f'] by rfl]
      simp only [List.cons_append, List.nil_append]
      rw [parseStringBody.eq_def]
      simp [unescape?, ih]
    by_cases h8 : c.toNat < 32
    · have hdiv : c.toNat / 16 < 16 := by omega
      have hmod : c.toNat % 16 < 16 := Nat.mod_lt _ (by omega)
      have hchar : Char.ofNat (c.toNat / 16 * 16 + c.toNat % 16) = c := by
        have harith : c.toNat / 16 * 16 + c.toNat % 16 = c.toNat := by omega
        rw [harith, Char.ofNat_toNat]
      have h0 : hexVal? '0' = some 0 := by decide
      rw [show escapeChar c =
            ['\\', 'u', '0', '0', hexDigit (c.toNat / 16), hexDigit (c.toNat % 16)] by
          simp [escapeChar, h1, h2, h3, h4, h5, h6, h7, h8]]
      simp only [List.cons_append, List.nil_append]
      rw [parseStringBody.eq_def]
      simp [h0, hexVal?_hexDigit hdiv, hexVal?_hexDigit hmod, hchar, ih]
    · rw [show escapeChar c = [c] by simp [escapeChar, h1, h2, h3, h4, h5, h6, h7, h8]]
      simp only [List.cons_append, List.nil_append]
      rw [parseStringBody.eq_def]
      simp [h1, h2, h8, ih]

theorem digit_not_ws {c : Char} (h : isDigitChar c = true) : isJsonWs c = false := by
  simp only [isDigitChar, Bool.and_eq_true, decide_eq_true_eq] at h
  simp only [isJsonWs, Bool.or_eq_false_iff, decide_eq_false_iff_not]
  refine ⟨⟨⟨?_, ?_⟩, ?_⟩, ?_⟩ <;> (rintro rfl; revert h; decide)

theorem digit_ne_rbrack {c : Char} (h : isDigitChar c = true) : c ≠ ']' := by
  rintro rfl; revert h; decide

/-- The first character of a serialized value: never JSON whitespace and
never a closing bracket. -/
theorem serialize_head (x : Json) :
    ∃ c t, serialize x = c :: t ∧ isJsonWs c = false ∧ c ≠ ']' := by
  cases x with
  | null => exact ⟨'n', _, rfl, by decide, by decide⟩
  | bool b => cases b with
    | true => exact ⟨'t', _, rfl, by decide, by decide⟩
    | false => exact ⟨'f', _, rfl, by decide, by decide⟩
  | num n =>
    by_cases hn : n < 0
    · exact ⟨'-', serNat n.natAbs, by rw [serialize, serInt, if_pos hn], by decide, by decide⟩
    · obtain ⟨c, t, hc, hd⟩ := serNat_head_digit n.natAbs
      exact ⟨c, t, by rw [serialize, serInt, if_neg hn, hc],
        digit_not_ws hd, digit_ne_rbrack hd⟩
  | str s => exact ⟨'"', _, rfl, by decide, by decide⟩
  | arr xs => cases xs with
    | nil => exact ⟨'[', _, rfl, by decide, by decide⟩
    | cons y ys => exact ⟨'[', _, rfl, by decide, by decide⟩
  | obj kvs => cases kvs with
    | nil => exact ⟨'{', _, rfl, by decide, by decide⟩
    | cons kv kvs => exact ⟨'{', _, rfl, by decide, by decide⟩

theorem dropJsonWs_cons_neg {c : Char} (h : isJsonWs c = false) (l : List Char) :
    dropJsonWs (c :: l) = c :: l := by
  simp [dropJsonWs, List.dropWhile_cons, h]

theorem dropJsonWs_cons_pos {c : Char} (h : isJsonWs c = true) (l : List Char) :
    dropJsonWs (c :: l) = dropJsonWs l := by
  simp [dropJsonWs, List.dropWhile_cons, h]

theorem parseValue_ws {c : Char} (h : isJsonWs c = true) (fuel : Nat) (l : List Char) :
    parseValue fuel (c :: l) = parseValue fuel l := by
  cases fuel with
  | zero => rfl
  | succ f =>
    rw [parseValue, parseValue, dropJsonWs_cons_pos h]

theorem parseElems_ws {c : Char} (h : isJsonWs c = true) (fuel : Nat) (l : List Char) :
    parseElems fuel (c :: l) = parseElems fuel l := by
  cases fuel with
  | zero => rfl
  | succ f =>
    rw [parseElems, parseElems, parseValue_ws h]

theorem parseMembers_ws {c : Char} (h : isJsonWs c = true) (fuel : Nat) (l : List Char) :
    parseMembers fuel (c :: l) = parseMembers fuel l := by
  cases fuel with
  | zero => rfl
  | succ f =>
    rw [parseMembers, parseMembers, dropJsonWs_cons_pos h]

/-- Guard needed for parsing a serialized value followed by `rest`: a bare
number must not be followed directly by another digit. -/
def numOk : Json → List Char → Prop
  | .num _, rest => ∀ c, rest.head? = some c → isDigitChar c = false
  | _, _ => True

mutual

/-- Fuel needed by `parseValue` on a serialized value. -/
def weightV : Json → Nat
  | .arr [] => 1
  | .arr (x :: xs) => 1 + weightE x xs
  | .obj [] => 1
  | .obj (kv :: kvs) => 1 + weightM kv kvs
  | _ => 1
  termination_by x => sizeOf x
  decreasing_by all_goals (simp_wf; try omega)

/-- Fuel needed by `parseElems` on serialized array elements. -/
def weightE : Json → List Json → Nat
  | x, [] => 1 + weightV x
  | x, y :: ys => 1 + max (weightV x) (weightE y ys)
  termination_by x xs => sizeOf x + sizeOf xs
  decreasing_by all_goals (simp_wf; try omega)

/-- Fuel needed by `parseMembers` on serialized object members. -/
def weightM : String × Json → List (String × Json) → Nat
  | (_, v), [] => 1 + weightV v
  | (_, v), kv2 :: kvs => 1 + max (weightV v) (weightM kv2 kvs)
  termination_by kv kvs => sizeOf kv + sizeOf kvs
  decreasing_by all_goals (simp_wf; try omega)

end

theorem numOk_of_head {x : Json} {rest : List Char}
    (h : ∀ c, rest.head? = some c → isDigitChar c = false) : numOk x rest := by
  cases x <;> first
    | exact trivial
    | exact h

theorem string_mk_data (s : String) : String.mk s.data = s := rfl

theorem parseValue_lbrack (f : Nat) (l : List Char) :
    parseValue (f + 1) ('[' :: l) =
      (match dropJsonWs l with
       | ']' :: r => some (.arr [], r)
       | cs' => (parseElems f cs').map (fun p => (.arr p.1, p.2))) := rfl

theorem parseValue_lbrace (f : Nat) (l : List Char) :
    parseValue (f + 1) ('{' :: l) =
      (match dropJsonWs l with
       | '}' :: r => some (.obj [], r)
       | cs' => (parseMembers f cs').map (fun p => (.obj p.1, p.2))) := rfl

theorem parseElems_succ (f : Nat) (cs : List Char) :
    parseElems (f + 1) cs =
      (parseValue f cs).bind (fun p =>
        match dropJsonWs p.2 with
        | ',' :: r => (parseElems f r).map (fun q => (p.1 :: q.1, q.2))
        | ']' :: r => some ([p.1], r)
        | _ => none) := rfl

theorem parseMembers_quote (f : Nat) (l : List Char) :
    parseMembers (f + 1) ('"' :: l) =
      (parseStringBody l).bind (fun p =>
        match dropJsonWs p.2 with
        | ':' :: r2 =>
            (parseValue f r2).bind (fun q =>
              match dropJsonWs q.2 with
              | ',' :: r4 =>
                  (parseMembers f r4).map (fun w => ((String.mk p.1, q.1) :: w.1, w.2))
              | '}' :: r4 => some ([(String.mk p.1, q.1)], r4)
              | _ => none)
        | _ => none) := rfl

mutual

theorem parseValue_serialize : ∀ (x : Json) (rest : List Char) (fuel : Nat),
    weightV x ≤ fuel → numOk x rest →
    parseValue fuel (serialize x ++ rest) = some (x, rest)
  | .null, rest, fuel, hf, _ => by
      obtain ⟨f, rfl⟩ : ∃ f, fuel = f + 1 :=
        ⟨fuel - 1, by simp [weightV] at hf; omega⟩
      simp [serialize, parseValue, dropJsonWs_cons_neg (by decide : isJsonWs 'n' = false)]
  | .bool true, rest, fuel, hf, _ => by
      obtain ⟨f, rfl⟩ : ∃ f, fuel = f + 1 :=
        ⟨fuel - 1, by simp [weightV] at hf; omega⟩
      simp [serialize, parseValue, dropJsonWs_cons_neg (by decide : isJsonWs 't' = false)]
  | .bool false, rest, fuel, hf, _ => by
      obtain ⟨f, rfl⟩ : ∃ f, fuel = f + 1 :=
        ⟨fuel - 1, by simp [weightV] at hf; omega⟩
      simp [serialize, parseValue, dropJsonWs_cons_neg (by decide : isJsonWs 'f' = false)]
  | .str s, rest, fuel, hf, _ => by
      obtain ⟨f, rfl⟩ : ∃ f, fuel = f + 1 :=
        ⟨fuel - 1, by simp [weightV] at hf; omega⟩
      have hq : isJsonWs '"' = false := by decide
      simp only [serialize, List.cons_append, List.append_assoc, List.singleton_append]
      rw [parseValue, dropJsonWs_cons_neg hq]
      simp [parseStringBody_escape, string_mk_data]
  | .num n, rest, fuel, hf, hok => by
      obtain ⟨f, rfl⟩ : ∃ f, fuel = f + 1 :=
        ⟨fuel - 1, by simp [weightV] at hf; omega⟩
      have hok' : ∀ c, rest.head? = some c → isDigitChar c = false := hok
      have hp : parseNumber (serInt n ++ rest) = some (n, rest) := parseNumber_serInt hok' n
      have hc : ∃ c t, serInt n = c :: t ∧ (c = '-' ∨ isDigitChar c = true) := by
        by_cases hn : n < 0
        · exact ⟨'-', serNat n.natAbs, by rw [serInt, if_pos hn], Or.inl rfl⟩
        · obtain ⟨c, t, hct, hd⟩ := serNat_head_digit n.natAbs
          exact ⟨c, t, by rw [serInt, if_neg hn, hct], Or.inr hd⟩
      obtain ⟨c, t, hct, hcd⟩ := hc
      have hnws : isJsonWs c = false := by
        rcases hcd with rfl | hd
        · decide
        · exact digit_not_ws hd
      have hser : serialize (Json.num n) ++ rest = c :: (t ++ rest) := by
        simp [serialize, hct]
      rw [hser, parseValue, dropJsonWs_cons_neg hnws]
      have hback : c :: (t ++ rest) = serInt n ++ rest := by simp [hct]
      split
      · rename_i heq
        rw [hback] at heq
        exfalso
        rcases hcd with rfl | hd
        · have := congrArg List.head? heq
          simp [hct] at this
        · have hh := congrArg List.head? heq
          rw [hct] at hh
          simp at hh
          rw [hh] at hd
          exact absurd hd (by decide)
      · rename_i heq
        rw [hback] at heq
        exfalso
        rcases hcd with rfl | hd
        · have := congrArg List.head? heq
          simp [hct] at this
        · have hh := congrArg List.head? heq
          rw [hct] at hh
          simp at hh
          rw [hh] at hd
          exact absurd hd (by decide)
      · rename_i heq
        rw [hback] at heq
        exfalso
        rcases hcd with rfl | hd
        · have := congrArg List.head? heq
          simp [hct] at this
        · have hh := congrArg List.head? heq
          rw [hct] at hh
          simp at hh
          rw [hh] at hd
          exact absurd hd (by decide)
      · rename_i heq
        rw [hback] at heq
        exfalso
        rcases hcd with rfl | hd
        · have := congrArg List.head? heq
          simp [hct] at this
        · have hh := congrArg List.head? heq
          rw [hct] at hh
          simp at hh
          rw [hh] at hd
          exact absurd hd (by decide)
      · rename_i heq
        rw [hback] at heq
        exfalso
        rcases hcd with rfl | hd
        · have := congrArg List.head? heq
          simp [hct] at this
        · have hh := congrArg List.head? heq
          rw [hct] at hh
          simp at hh
          rw [hh] at hd
          exact absurd hd (by decide)
      · rename_i heq
        rw [hback] at heq
        exfalso
        rcases hcd with rfl | hd
        · have := congrArg List.head? heq
          simp [hct] at this
        · have hh := congrArg List.head? heq
          rw [hct] at hh
          simp at hh
          rw [hh] at hd
          exact absurd hd (by decide)
      · rw [hback, hp]
        rfl
  | .arr [], rest, fuel, hf, _ => by
      obtain ⟨f, rfl⟩ : ∃ f, fuel = f + 1 :=
        ⟨fuel - 1, by simp [weightV] at hf; omega⟩
      rfl
  | .arr (x :: xs), rest, fuel, hf, _ => by
      obtain ⟨f, rfl⟩ : ∃ f, fuel = f + 1 :=
        ⟨fuel - 1, by simp [weightV] at hf; omega⟩
      have hfe : weightE x xs ≤ f := by
        rw [weightV] at hf; omega
      have hser : serialize (Json.arr (x :: xs)) ++ rest =
          '[' :: (serialize x ++ (serializeElems xs ++ (']' :: rest))) := by
        simp [serialize]
      rw [hser, parseValue_lbrack]
      obtain ⟨c, t, hct, hcw, hcb⟩ := serialize_head x
      have hx : serialize x ++ (serializeElems xs ++ (']' :: rest)) =
          c :: (t ++ (serializeElems xs ++ (']' :: rest))) := by rw [hct]; rfl
      rw [hx, dropJsonWs_cons_neg hcw]
      split
      · rename_i r heq
        exact absurd (by injection heq) hcb
      · rw [← hx, parseElems_serialize x xs rest f hfe]
        rfl
  | .obj [], rest, fuel, hf, _ => by
      obtain ⟨f, rfl⟩ : ∃ f, fuel = f + 1 :=
        ⟨fuel - 1, by simp [weightV] at hf; omega⟩
      rfl
  | .obj ((k, v) :: kvs), rest, fuel, hf, _ => by
      obtain ⟨f, rfl⟩ : ∃ f, fuel = f + 1 :=
        ⟨fuel - 1, by simp [weightV] at hf; omega⟩
      have hfm : weightM (k, v) kvs ≤ f := by
        rw [weightV] at hf; omega
      have hser : serialize (Json.obj ((k, v) :: kvs)) ++ rest =
          '{' :: (serializeMember (k, v) ++ (serializeMembers kvs ++ ('}' :: rest))) := by
        simp [serialize]
      rw [hser, parseValue_lbrace]
      have hm : serializeMember (k, v) ++ (serializeMembers kvs ++ ('}' :: rest)) =
          '"' :: (escapeStr k.data ++ ('"' :: ':' :: ' ' :: serialize v ++ (serializeMembers kvs ++ ('}' :: rest)))) := by
        simp [serializeMember]
      rw [hm, dropJsonWs_cons_neg (by decide)]
      split
      · rename_i r heq
        exact absurd (by injection heq) (by decide : ('"' : Char) ≠ '}')
      · rw [← hm, parseMembers_serialize k v kvs rest f hfm]
        rfl
  termination_by x _ _ _ _ => sizeOf x
  decreasing_by all_goals (simp_wf; try omega)

theorem parseElems_serialize : ∀ (x : Json) (xs : List Json) (rest : List Char) (fuel : Nat),
    weightE x xs ≤ fuel →
    parseElems fuel (serialize x ++ (serializeElems xs ++ (']' :: rest))) = some (x :: xs, rest)
  | x, [], rest, fuel, hf => by
      obtain ⟨f, rfl⟩ : ∃ f, fuel = f + 1 :=
        ⟨fuel - 1, by rw [weightE] at hf; omega⟩
      have hfv : weightV x ≤ f := by rw [weightE] at hf; omega
      rw [parseElems_succ]
      rw [show serializeElems ([] : List Json) = [] from rfl, List.nil_append]
      rw [parseValue_serialize x (']' :: rest) f hfv
        (numOk_of_head (by intro c hc; simp at hc; rw [← hc]; decide))]
      rfl
  | x, y :: ys, rest, fuel, hf => by
      obtain ⟨f, rfl⟩ : ∃ f, fuel = f + 1 :=
        ⟨fuel - 1, by rw [weightE] at hf; omega⟩
      have hfv : weightV x ≤ f := by
        rw [weightE] at hf
        have := le_max_left (weightV x) (weightE y ys)
        omega
      have hfe : weightE y ys ≤ f := by
        rw [weightE] at hf
        have := le_max_right (weightV x) (weightE y ys)
        omega
      rw [parseElems_succ]
      have hsplit : serializeElems (y :: ys) ++ (']' :: rest) =
          ',' :: ' ' :: (serialize y ++ (serializeElems ys ++ (']' :: rest))) := by
        simp [serializeElems]
      rw [hsplit]
      rw [parseValue_serialize x _ f hfv
        (numOk_of_head (by intro c hc; simp at hc; rw [← hc]; decide))]
      show Option.map (fun q => (x :: q.1, q.2))
          (parseElems f (' ' :: (serialize y ++ (serializeElems ys ++ (']' :: rest))))) =
        some (x :: y :: ys, rest)
      rw [parseElems_ws (by decide), parseElems_serialize y ys rest f hfe]
      rfl
  termination_by x xs _ _ _ => sizeOf x + sizeOf xs + 1
  decreasing_by all_goals (simp_wf; try omega)

theorem parseMembers_serialize : ∀ (k : String) (v : Json) (kvs : List (String × Json))
    (rest : List Char) (fuel : Nat),
    weightM (k, v) kvs ≤ fuel →
    parseMembers fuel (serializeMember (k, v) ++ (serializeMembers kvs ++ ('}' :: rest))) =
      some ((k, v) :: kvs, rest)
  | k, v, [], rest, fuel, hf => by
      obtain ⟨f, rfl⟩ : ∃ f, fuel = f + 1 :=
        ⟨fuel - 1, by rw [weightM] at hf; omega⟩
      have hfv : weightV v ≤ f := by rw [weightM] at hf; omega
      have hm : serializeMember (k, v) ++ (serializeMembers [] ++ ('}' :: rest)) =
          '"' :: (escapeStr k.data ++ ('"' :: (':' :: ' ' :: (serialize v ++ ('}' :: rest))))) := by
        simp [serializeMember, serializeMembers]
      rw [hm, parseMembers_quote]
      rw [parseStringBody_escape k.data]
      show (parseValue f (' ' :: (serialize v ++ ('}' :: rest)))).bind (fun q =>
          match dropJsonWs q.2 with
          | ',' :: r4 =>
              (parseMembers f r4).map (fun w => ((String.mk k.data, q.1) :: w.1, w.2))
          | '}' :: r4 => some ([(String.mk k.data, q.1)], r4)
          | _ => none) = some ([(k, v)], rest)
      rw [parseValue_ws (by decide)]
      rw [parseValue_serialize v ('}' :: rest) f hfv
        (numOk_of_head (by intro c hc; simp at hc; rw [← hc]; decide))]
      rfl
  | k, v, (k2, v2) :: kvs, rest, fuel, hf => by
      obtain ⟨f, rfl⟩ : ∃ f, fuel = f + 1 :=
        ⟨fuel - 1, by rw [weightM] at hf; omega⟩
      have hfv : weightV v ≤ f := by
        rw [weightM] at hf
        have := le_max_left (weightV v) (weightM (k2, v2) kvs)
        omega
      have hfm : weightM (k2, v2) kvs ≤ f := by
        rw [weightM] at hf
        have := le_max_right (weightV v) (weightM (k2, v2) kvs)
        omega
      have hm : serializeMember (k, v) ++ (serializeMembers ((k2, v2) :: kvs) ++ ('}' :: rest)) =
          '"' :: (escapeStr k.data ++ ('"' :: (':' :: ' ' :: (serialize v ++
            (',' :: ' ' :: (serializeMember (k2, v2) ++ (serializeMembers kvs ++ ('}' :: rest)))))))) := by
        simp [serializeMember, serializeMembers]
      rw [hm, parseMembers_quote]
      rw [parseStringBody_escape k.data]
      show (parseValue f (' ' :: (serialize v ++
          (',' :: ' ' :: (serializeMember (k2, v2) ++ (serializeMembers kvs ++ ('}' :: rest))))))).bind (fun q =>
          match dropJsonWs q.2 with
          | ',' :: r4 =>
              (parseMembers f r4).map (fun w => ((String.mk k.data, q.1) :: w.1, w.2))
          | '}' :: r4 => some ([(String.mk k.data, q.1)], r4)
          | _ => none) = some ((k, v) :: (k2, v2) :: kvs, rest)
      rw [parseValue_ws (by decide)]
      rw [parseValue_serialize v _ f hfv
        (numOk_of_head (by intro c hc; simp at hc; rw [← hc]; decide))]
      show Option.map (fun w => ((String.mk k.data, v) :: w.1, w.2))
          (parseMembers f (' ' :: (serializeMember (k2, v2) ++ (serializeMembers kvs ++ ('}' :: rest))))) =
        some ((k, v) :: (k2, v2) :: kvs, rest)
      rw [parseMembers_ws (by decide), parseMembers_serialize k2 v2 kvs rest f hfm]
      rfl
  termination_by _ v kvs _ _ _ => sizeOf v + sizeOf kvs + 1
  decreasing_by all_goals (simp_wf; try omega)

end

mutual

theorem weightV_le : ∀ x : Json, weightV x ≤ (serialize x).length
  | .null => by simp [weightV, serialize]
  | .bool true => by simp [weightV, serialize]
  | .bool false => by simp [weightV, serialize]
  | .num n => by
      have := serNat_ne_nil n.natAbs
      have hlen : 1 ≤ (serNat n.natAbs).length := by
        cases h : serNat n.natAbs with
        | nil => exact absurd h this
        | cons c t => simp
      by_cases hn : n < 0
      · simp only [weightV, serialize, serInt, if_pos hn, List.length_cons]
        omega
      · simp only [weightV, serialize, serInt, if_neg hn]
        omega
  | .str s => by simp [weightV, serialize]
  | .arr [] => by simp [weightV, serialize]
  | .arr (x :: xs) => by
      have h := weightE_le x xs
      simp only [weightV, serialize, List.length_cons, List.length_append,
        List.length_singleton]
      omega
  | .obj [] => by simp [weightV, serialize]
  | .obj ((k, v) :: kvs) => by
      have h := weightM_le k v kvs
      simp only [weightV, serialize, List.length_cons, List.length_append,
        List.length_singleton]
      omega
  termination_by x => sizeOf x
  decreasing_by all_goals (simp_wf; try omega)

theorem weightE_le : ∀ (x : Json) (xs : List Json),
    weightE x xs ≤ (serialize x).length + (serializeElems xs).length + 1
  | x, [] => by
      have h := weightV_le x
      simp only [weightE, serializeElems, List.length_nil]
      omega
  | x, y :: ys => by
      have h1 := weightV_le x
      have h2 := weightE_le y ys
      simp only [weightE, serializeElems, List.length_cons, List.length_append]
      omega
  termination_by x xs => sizeOf x + sizeOf xs + 1
  decreasing_by all_goals (simp_wf; try omega)

theorem weightM_le : ∀ (k : String) (v : Json) (kvs : List (String × Json)),
    weightM (k, v) kvs ≤ (serializeMember (k, v)).length + (serializeMembers kvs).length + 1
  | k, v, [] => by
      have h := weightV_le v
      simp only [weightM, serializeMember, serializeMembers, List.length_nil,
        List.length_cons, List.length_append]
      omega
  | k, v, (k2, v2) :: kvs => by
      have h1 := weightV_le v
      have h2 := weightM_le k2 v2 kvs
      have hmax : max (weightV v) (weightM (k2, v2) kvs) ≤
          weightV v + weightM (k2, v2) kvs :=
        max_le (Nat.le_add_right _ _) (Nat.le_add_left _ _)
      have houter : (serializeMember (k, v)).length =
          4 + (escapeStr k.data).length + (serialize v).length := by
        simp [serializeMember]
        omega
      have hmembers : (serializeMembers ((k2, v2) :: kvs)).length =
          2 + (serializeMember (k2, v2)).length + (serializeMembers kvs).length := by
        simp [serializeMembers]
        omega
      simp only [weightM]
      omega
  termination_by _ v kvs => sizeOf v + sizeOf kvs + 1
  decreasing_by all_goals (simp_wf; try omega)

end

/-- The parser inverts the serializer: `json.loads(json.dumps(x)) == x`. -/
theorem parseJsonList_serialize (x : Json) : parseJsonList (serialize x) = some x := by
  unfold parseJsonList
  have h := parseValue_serialize x [] ((serialize x).length + 1)
    (le_trans (weightV_le x) (by omega))
    (numOk_of_head (by intro c hc; simp at hc))
  rw [show serialize x ++ ([] : List Char) = serialize x by simp] at h
  rw [h]
  simp [dropJsonWs]

/-! ## The answer-extraction layer

Models of the Python text cleanup shared by `LLMManager.generate_text`,
`CoderAgent.generate_code` and `DebuggerAgent._extract_json`:

* `stripFences` is the model of
  `re.sub(r"^```json\s*|\s*```$", "", text, flags=re.MULTILINE)` —
  a left-to-right scan deleting, at each line start, a leading
  <code>```json</code> fence together with the following whitespace run,
  and anywhere a whitespace run followed by <code>```</code> standing at a
  line end.  Anchors refer to positions of the original text, matches are
  leftmost and the `\s*` runs are maximal (no shorter run can be followed
  by a backtick, because whitespace is never a backtick).
* `pyStrip` is `str.strip()` (ASCII whitespace).
* `braceSub?` is `re.search(r"\{.*\}", t, re.DOTALL)`: the match starts at
  the first `{` and extends greedily to the last `}`.
* `extractJson` is `DebuggerAgent._extract_json`, with
  `_looks_like_json` modelled by `parseJsonList`. -/

/-- ASCII whitespace as matched by `str.strip` and the regex class `\s`. -/
def isPyWs (c : Char) : Bool :=
  c = ' ' || c = '\t' || c = '\n' || c = '\r' || c = Char.ofNat 11 || c = Char.ofNat 12

/-- Python `str.strip()` on a character list. -/
def pyStrip (cs : List Char) : List Char :=
  ((cs.dropWhile isPyWs).reverse.dropWhile isPyWs).reverse

/-- Match of the regex alternative `` ^```json\s* `` at the current
position (the caller checks the line-start anchor): consumes the literal
fence and the maximal following whitespace run.  Returns the remainder and
whether the next position is a line start (i.e. the last consumed
character was a newline). -/
def fenceStartMatch? : List Char → Option (List Char × Bool)
  | '`' :: '`' :: '`' :: 'j' :: 's' :: 'o' :: 'n' :: r =>
      let w := r.takeWhile isPyWs
      some (r.dropWhile isPyWs, decide (w ≠ [] ∧ w.getLast? = some '\n'))
  | _ => none

/-- Match of the regex alternative `` \s*```$ `` at the current position:
the maximal whitespace run followed by three backticks standing at a line
end (end of input or just before a newline, which is not consumed). -/
def fenceEndMatch? (cs : List Char) : Option (List Char) :=
  match cs.dropWhile isPyWs with
  | '`' :: '`' :: '`' :: r =>
      match r with
      | [] => some []
      | '\n' :: _ => some r
      | _ => none
  | _ => none

theorem fenceStartMatch?_length {cs : List Char} {ra : List Char × Bool}
    (h : fenceStartMatch? cs = some ra) : ra.1.length < cs.length := by
  unfold fenceStartMatch? at h
  split at h
  · rename_i t
    simp only [Option.some.injEq] at h
    have hle : (t.dropWhile isPyWs).length ≤ t.length :=
      List.Sublist.length_le (List.dropWhile_sublist _)
    rw [← h]
    simp only [List.length_cons]
    omega
  · exact absurd h (by simp)

theorem fenceEndMatch?_length {cs r : List Char}
    (h : fenceEndMatch? cs = some r) : r.length < cs.length := by
  have hle : (cs.dropWhile isPyWs).length ≤ cs.length :=
    List.Sublist.length_le (List.dropWhile_sublist _)
  unfold fenceEndMatch? at h
  split at h
  · rename_i t heq
    have hlen : t.length + 3 ≤ cs.length := by
      have := congrArg List.length heq
      simp at this
      omega
    split at h
    · have hr : r = [] := by simpa using h.symm
      subst hr
      simp only [List.length_nil]
      omega
    · rename_i l hl
      simp only [Option.some.injEq] at h
      subst h
      omega
    · exact absurd h (by simp)
  · exact absurd h (by simp)

/-- One pass of `re.sub(r"^```json\s*|\s*```$", "", text, re.MULTILINE)`:
scan left to right, trying the first alternative at line starts and the
second alternative everywhere, deleting matches and copying everything
else. -/
def stripFencesAux (atLS : Bool) (cs : List Char) : List Char :=
  match cs with
  | [] => []
  | c :: rest =>
    match hs : (if atLS then fenceStartMatch? (c :: rest) else none) with
    | some ra => stripFencesAux ra.2 ra.1
    | none =>
      match he : fenceEndMatch? (c :: rest) with
      | some r => stripFencesAux false r
      | none => c :: stripFencesAux (c = '\n') rest
  termination_by cs.length
  decreasing_by
  · cases atLS with
    | true =>
        have := fenceStartMatch?_length (show fenceStartMatch? _ = some ra by simpa using hs)
        simpa using this
    | false => simp at hs
  · have := fenceEndMatch?_length he
    simpa using this
  · simp only [List.length_cons]
    omega

/-- The text cleanup `re.sub(r"^```json\s*|\s*```$", "", text, re.MULTILINE)`
(the start of the text is a line start). -/
def stripFences (cs : List Char) : List Char :=
  stripFencesAux true cs

/-- `re.search(r"\{.*\}", t, re.DOTALL)`: the leftmost match starts at the
first `{`; the greedy `.*` extends to the last `}`. -/
def braceSub? (t : List Char) : Option (List Char) :=
  let afterFirst := t.dropWhile (fun c => !(c = '{'))
  match (afterFirst.reverse.dropWhile (fun c => !(c = '}'))).reverse with
  | [] => none
  | m => some m

/-- `DebuggerAgent._looks_like_json`: does the text parse as JSON? -/
def looksLikeJson (cs : List Char) : Bool :=
  (parseJsonList cs).isSome

/-- The fence cleanup shared by `LLMManager.generate_text` and
`CoderAgent.generate_code`:
`re.sub(r"^```json\s*|\s*```$", "", text, flags=re.MULTILINE).strip()`. -/
def cleanupText (cs : List Char) : List Char :=
  pyStrip (stripFences cs)

/-- `DebuggerAgent._extract_json`: strip the text, strip fences, strip
again; if the result parses, return it, otherwise fall back to the first
brace-delimited substring (stripped), or the cleaned text itself. -/
def extractJson (cs : List Char) : List Char :=
  let t := pyStrip (stripFences (pyStrip cs))
  if looksLikeJson t then t
  else
    match braceSub? t with
    | some m => pyStrip m
    | none => t

/-- String-level `_extract_json`. -/
def extractJsonStr (s : String) : String :=
  String.mk (extractJson s.data)

/-! ## Fence-stripping facts -/

/-- A list of whitespace characters only. -/
def wsOnly (l : List Char) : Prop := ∀ c ∈ l, isPyWs c = true

theorem dropWhile_ws_append {w : List Char} (hw : wsOnly w) (l : List Char) :
    (w ++ l).dropWhile isPyWs = l.dropWhile isPyWs := by
  induction w with
  | nil => simp
  | cons c w ih =>
    have hc : isPyWs c = true := hw c (by simp)
    simp only [List.cons_append, List.dropWhile_cons, hc, if_pos]
    exact ih (fun d hd => hw d (by simp [hd]))

theorem dropWhile_cons_nonws {c : Char} (hc : isPyWs c = false) (l : List Char) :
    (c :: l).dropWhile isPyWs = c :: l := by
  simp [List.dropWhile_cons, hc]

theorem trimR_append_ws {m w : List Char} (hw : wsOnly w)
    (hm : ∃ m₀ c, m = m₀ ++ [c] ∧ isPyWs c = false) :
    ((m ++ w).reverse.dropWhile isPyWs).reverse = m := by
  obtain ⟨m₀, c, rfl, hc⟩ := hm
  have hwrev : wsOnly w.reverse := fun d hd => hw d (by simpa using hd)
  rw [List.reverse_append, dropWhile_ws_append hwrev,
    show (m₀ ++ [c]).reverse = c :: m₀.reverse by simp,
    dropWhile_cons_nonws hc]
  simp

theorem pyStrip_of_ends {w₀ w₁ m : List Char} (h₀ : wsOnly w₀) (h₁ : wsOnly w₁)
    (hhead : ∃ c m₁, m = c :: m₁ ∧ isPyWs c = false)
    (hlast : ∃ m₀ c, m = m₀ ++ [c] ∧ isPyWs c = false) :
    pyStrip (w₀ ++ m ++ w₁) = m := by
  obtain ⟨c, m₁, hcm, hc⟩ := hhead
  unfold pyStrip
  rw [List.append_assoc, dropWhile_ws_append h₀, hcm, List.cons_append,
    dropWhile_cons_nonws hc, ← List.cons_append, ← hcm]
  exact trimR_append_ws h₁ hlast

/-- Unfolding: a fence-start match consumes the match and continues. -/
theorem stripFencesAux_start {cs : List Char} {ra : List Char × Bool}
    (h : fenceStartMatch? cs = some ra) :
    stripFencesAux true cs = stripFencesAux ra.2 ra.1 := by
  cases cs with
  | nil => exact absurd h (by simp [fenceStartMatch?])
  | cons c rest =>
    rw [stripFencesAux.eq_def]
    split
    · rename_i heq
      simp at heq
    · rename_i c' cs' heq
      injection heq with hc hr
      subst hc
      subst hr
      split
      · rename_i ra' hs
        simp only [if_true] at hs
        rw [h] at hs
        injection hs with hs'
        rw [hs']
      · rename_i hs
        simp only [if_true] at hs
        rw [h] at hs
        exact absurd hs (by simp)

/-- Unfolding: with no fence-start match, a fence-end match consumes the
match and continues with the line-start flag cleared. -/
theorem stripFencesAux_end {flag : Bool} {cs r : List Char}
    (h1 : flag = true → fenceStartMatch? cs = none)
    (h2 : fenceEndMatch? cs = some r) :
    stripFencesAux flag cs = stripFencesAux false r := by
  cases cs with
  | nil => exact absurd h2 (by simp [fenceEndMatch?])
  | cons c rest =>
    rw [stripFencesAux.eq_def]
    split
    · rename_i heq
      simp at heq
    · rename_i c' cs' heq
      injection heq with hc hr
      subst hc
      subst hr
      split
      · rename_i ra' hs
        cases flag with
        | false => simp at hs
        | true =>
            simp only [if_true] at hs
            rw [h1 rfl] at hs
            exact absurd hs (by simp)
      · split
        · rename_i r' he
          rw [h2] at he
          injection he with he'
          rw [he']
        · rename_i he
          rw [h2] at he
          exact absurd he (by simp)

/-- Unfolding: with no match at this position, the character is copied. -/
theorem stripFencesAux_copy {flag : Bool} {c : Char} {rest : List Char}
    (h1 : flag = true → fenceStartMatch? (c :: rest) = none)
    (h2 : fenceEndMatch? (c :: rest) = none) :
    stripFencesAux flag (c :: rest) = c :: stripFencesAux (c = '\n') rest := by
  rw [stripFencesAux.eq_def]
  split
  · rename_i heq
    simp at heq
  · rename_i c' cs' heq
    injection heq with hc hr
    subst hc
    subst hr
    split
    · rename_i ra' hs
      cases flag with
      | false => simp at hs
      | true =>
          simp only [if_true] at hs
          rw [h1 rfl] at hs
          exact absurd hs (by simp)
    · split
      · rename_i r' he
        rw [h2] at he
        exact absurd he (by simp)
      · rfl

theorem fenceStart_none_of_head {c : Char} (hc : c ≠ '`') (l : List Char) :
    fenceStartMatch? (c :: l) = none := by
  unfold fenceStartMatch?
  split
  · rename_i t heq
    exact absurd (by injection heq) hc
  · rfl

theorem suffix_ends {dv w : List Char} {c : Char} (hsuf : dv <:+ w ++ [c])
    (hne : dv ≠ []) : ∃ w₂, dv = w₂ ++ [c] := by
  obtain ⟨u, hu⟩ := hsuf
  obtain h | ⟨L, b, rfl⟩ := dv.eq_nil_or_concat
  · exact absurd h hne
  · refine ⟨L, ?_⟩
    rw [List.concat_eq_append] at hu ⊢
    rw [← List.append_assoc] at hu
    have := congrArg List.getLast? hu
    rw [List.getLast?_concat, List.getLast?_concat] at this
    injection this with hb
    rw [hb]

/-- The second regex alternative never matches at a position inside a text
segment that contains no newline and ends in `}` (such as a serialized
JSON object): the line-end anchor always fails. -/
theorem fenceEnd_none_of_inert {v : List Char} (cont : List Char)
    (hnl : '\n' ∉ v) (hend : ∃ w, v = w ++ ['}']) :
    fenceEndMatch? (v ++ cont) = none := by
  obtain ⟨w, rfl⟩ := hend
  have hdvne : (w ++ ['}']).dropWhile isPyWs ≠ [] := by
    intro h
    rw [List.dropWhile_eq_nil_iff] at h
    have := h '}' (by simp)
    simp [isPyWs] at this
  have hsuf := List.dropWhile_suffix (l := w ++ ['}']) isPyWs
  obtain ⟨w₂, hdv⟩ := suffix_ends hsuf hdvne
  have hnl' : ∀ c ∈ w₂ ++ ['}'], c ≠ '\n' := by
    intro c hc hconc
    subst hconc
    exact hnl (hsuf.sublist.mem (hdv ▸ hc))
  have hsplit : (w ++ ['}'] ++ cont).dropWhile isPyWs =
      (w ++ ['}']).dropWhile isPyWs ++ cont := by
    rw [List.dropWhile_append]
    simp only [List.isEmpty_iff]
    rw [if_neg hdvne]
  unfold fenceEndMatch?
  rw [hsplit, hdv]
  rcases w₂ with _ | ⟨a, _ | ⟨b, _ | ⟨c3, w4⟩⟩⟩
  · simp only [List.nil_append, List.cons_append]
    rfl
  · simp only [List.cons_append, List.singleton_append]
    split
    · rename_i r heq
      injection heq with h1 h2
      injection h2 with h3
      exact absurd h3 (by decide)
    · rfl
  · simp only [List.cons_append]
    split
    · rename_i r heq
      injection heq with h1 h2
      injection h2 with h3 h4
      injection h4 with h5
      exact absurd h5 (by decide)
    · rfl
  · simp only [List.cons_append]
    split
    · rename_i r heq
      injection heq with h1 h2
      injection h2 with h3 h4
      injection h4 with h5 h6
      rw [← h6]
      cases w4 with
      | nil => rfl
      | cons d w5 =>
          have hd : d ≠ '\n' := hnl' d (by simp)
          simp only [List.cons_append]
          split
          · rename_i heq2
            simp at heq2
          · rename_i r2 heq2
            injection heq2 with h7
            exact absurd h7 hd
          · rfl
    · rfl

/-- Scanning an inert segment (no newline, ends in `}`, and when at a line
start does not begin with a backtick) copies it unchanged. -/
theorem scan_inert : ∀ (v cont : List Char) (flag : Bool),
    '\n' ∉ v → (∃ w, v = w ++ ['}']) →
    (flag = true → v.head? ≠ some '`') →
    stripFencesAux flag (v ++ cont) = v ++ stripFencesAux false cont := by
  intro v
  induction v with
  | nil =>
    intro cont flag _ hend _
    obtain ⟨w, hw⟩ := hend
    exact absurd hw.symm (by simp)
  | cons c v' ih =>
    intro cont flag hnl hend hflag
    have hstart : flag = true → fenceStartMatch? (c :: (v' ++ cont)) = none := by
      intro hf
      have hc : c ≠ '`' := by
        intro hcc
        exact hflag hf (by rw [hcc]; rfl)
      exact fenceStart_none_of_head hc _
    have hendm : fenceEndMatch? ((c :: v') ++ cont) = none :=
      fenceEnd_none_of_inert cont hnl hend
    rw [List.cons_append, stripFencesAux_copy hstart (by simpa using hendm)]
    have hcn : c ≠ '\n' := by
      intro hcc
      exact hnl (by rw [hcc]; simp)
    rw [show (decide (c = '\n')) = false by simp [hcn]]
    cases v' with
    | nil =>
        simp
    | cons d v'' =>
        have hend' : ∃ w', d :: v'' = w' ++ ['}'] := by
          obtain ⟨w, hw⟩ := hend
          cases w with
          | nil => simp at hw
          | cons e w' =>
              injection hw with h1 h2
              exact ⟨w', h2⟩
        rw [ih cont false (by intro hmm; exact hnl (by simp [hmm]))
          hend' (by simp)]
        simp

/-- A trailing whitespace run followed by a closing fence at end of input
is deleted entirely. -/
theorem scan_close {w : List Char} (hw : wsOnly w) :
    stripFencesAux false (w ++ ['`', '`', '`']) = [] := by
  have hm : fenceEndMatch? (w ++ ['`', '`', '`']) = some [] := by
    unfold fenceEndMatch?
    rw [dropWhile_ws_append hw]
    rfl
  have haux : stripFencesAux false ([] : List Char) = [] := by
    rw [stripFencesAux.eq_def]
  cases hcs : w ++ ['`', '`', '`'] with
  | nil => simp at hcs
  | cons c rest =>
      rw [hcs] at hm
      rw [stripFencesAux_end (by simp) hm, haux]

/-- The first regex alternative fires on a line-start `` ```json `` fence,
consuming it together with the whitespace separating it from the payload. -/
theorem fenceStart_fires {w₁ : List Char} {c : Char} {t : List Char}
    (hw : wsOnly w₁) (hc : isPyWs c = false) :
    fenceStartMatch? ('`' :: '`' :: '`' :: 'j' :: 's' :: 'o' :: 'n' :: (w₁ ++ (c :: t))) =
      some (c :: t,
        decide ((w₁ ++ (c :: t)).takeWhile isPyWs ≠ [] ∧
          ((w₁ ++ (c :: t)).takeWhile isPyWs).getLast? = some '\n')) := by
  simp only [fenceStartMatch?]
  rw [dropWhile_ws_append hw, dropWhile_cons_nonws hc]

theorem hexDigit_ne_nl {d : Nat} (h : d < 16) : hexDigit d ≠ '\n' := by
  interval_cases d <;> decide

theorem escapeChar_nnl (c : Char) : '\n' ∉ escapeChar c := by
  intro hmem
  unfold escapeChar at hmem
  split_ifs at hmem with h1 h2 h3 h4 h5 h6 h7 h8
  · simp at hmem
  · simp at hmem
  · simp at hmem
  · simp at hmem
  · simp at hmem
  · simp at hmem
  · simp at hmem
  · rcases List.mem_cons.mp hmem with h | hmem
    · exact absurd h (by decide)
    rcases List.mem_cons.mp hmem with h | hmem
    · exact absurd h (by decide)
    rcases List.mem_cons.mp hmem with h | hmem
    · exact absurd h (by decide)
    rcases List.mem_cons.mp hmem with h | hmem
    · exact absurd h (by decide)
    rcases List.mem_cons.mp hmem with h | hmem
    · exact hexDigit_ne_nl (by omega) h.symm
    rcases List.mem_cons.mp hmem with h | hmem
    · exact hexDigit_ne_nl (Nat.mod_lt _ (by omega)) h.symm
    · simp at hmem
  · rw [List.mem_singleton] at hmem
    exact h3 hmem.symm

theorem serNat_nnl (n : Nat) : '\n' ∉ serNat n := by
  induction n using Nat.strong_induction_on with
  | _ n ih =>
    by_cases h : n < 10
    · rw [serNat_of_lt h]
      have hto : (Char.ofNat (48 + n)).toNat = 48 + n := toNat_ofNat_digit h
      simp only [List.mem_singleton]
      intro hc
      rw [← hc] at hto
      rw [show ('\n').toNat = 10 from by decide] at hto
      omega
    · rw [serNat_of_ge h]
      have h10 : n % 10 < 10 := Nat.mod_lt _ (by omega)
      have hto : (Char.ofNat (48 + n % 10)).toNat = 48 + n % 10 := toNat_ofNat_digit h10
      simp only [List.mem_append, List.mem_singleton]
      rintro (hm | hc)
      · exact ih (n / 10) (Nat.div_lt_self (by omega) (by omega)) hm
      · rw [← hc] at hto
        rw [show ('\n').toNat = 10 from by decide] at hto
        omega

theorem escapeStr_nnl (cs : List Char) : '\n' ∉ escapeStr cs := by
  intro h
  replace h : '\n' ∈ cs.flatMap escapeChar := h
  rw [List.mem_flatMap] at h
  obtain ⟨c, _, hc⟩ := h
  exact escapeChar_nnl c hc

mutual

theorem serialize_nnl : ∀ x : Json, '\n' ∉ serialize x
  | .null => by simp [serialize]
  | .bool true => by simp [serialize]
  | .bool false => by simp [serialize]
  | .num n => by
      intro h
      by_cases hn : n < 0
      · rw [show serialize (Json.num n) = serInt n from rfl, serInt, if_pos hn] at h
        rcases List.mem_cons.mp h with h | h
        · exact absurd h (by decide)
        · exact serNat_nnl n.natAbs h
      · rw [show serialize (Json.num n) = serInt n from rfl, serInt, if_neg hn] at h
        exact serNat_nnl n.natAbs h
  | .str s => by
      intro h
      rw [show serialize (Json.str s) = '"' :: escapeStr s.data ++ ['"'] from rfl] at h
      rcases List.mem_cons.mp h with h | h
      · exact absurd h (by decide)
      rcases List.mem_append.mp h with h | h
      · exact escapeStr_nnl s.data h
      · simp at h
  | .arr [] => by simp [serialize]
  | .arr (x :: xs) => by
      intro h
      rw [show serialize (Json.arr (x :: xs)) =
        '[' :: serialize x ++ serializeElems xs ++ [']'] from rfl] at h
      rcases List.mem_cons.mp h with h | h
      · exact absurd h (by decide)
      rcases List.mem_append.mp h with h | h
      · rcases List.mem_append.mp h with h | h
        · exact serialize_nnl x h
        · exact serializeElems_nnl xs h
      · simp at h
  | .obj [] => by simp [serialize]
  | .obj (kv :: kvs) => by
      intro h
      rw [show serialize (Json.obj (kv :: kvs)) =
        '{' :: serializeMember kv ++ serializeMembers kvs ++ ['}'] from rfl] at h
      rcases List.mem_cons.mp h with h | h
      · exact absurd h (by decide)
      rcases List.mem_append.mp h with h | h
      · rcases List.mem_append.mp h with h | h
        · exact serializeMember_nnl kv h
        · exact serializeMembers_nnl kvs h
      · simp at h
  termination_by x => sizeOf x
  decreasing_by all_goals (simp_wf; try omega)

theorem serializeElems_nnl : ∀ xs : List Json, '\n' ∉ serializeElems xs
  | [] => by simp [serializeElems]
  | x :: xs => by
      intro h
      rw [show serializeElems (x :: xs) =
        ',' :: ' ' :: serialize x ++ serializeElems xs from rfl] at h
      rcases List.mem_cons.mp h with h | h
      · exact absurd h (by decide)
      rcases List.mem_cons.mp h with h | h
      · exact absurd h (by decide)
      rcases List.mem_append.mp h with h | h
      · exact serialize_nnl x h
      · exact serializeElems_nnl xs h
  termination_by xs => sizeOf xs
  decreasing_by all_goals (simp_wf; try omega)

theorem serializeMember_nnl : ∀ kv : String × Json, '\n' ∉ serializeMember kv
  | (k, v) => by
      intro h
      rw [show serializeMember (k, v) =
        '"' :: escapeStr k.data ++ '"' :: ':' :: ' ' :: serialize v from rfl] at h
      rcases List.mem_cons.mp h with h | h
      · exact absurd h (by decide)
      rcases List.mem_append.mp h with h | h
      · exact escapeStr_nnl k.data h
      rcases List.mem_cons.mp h with h | h
      · exact absurd h (by decide)
      rcases List.mem_cons.mp h with h | h
      · exact absurd h (by decide)
      rcases List.mem_cons.mp h with h | h
      · exact absurd h (by decide)
      · exact serialize_nnl v h
  termination_by kv => sizeOf kv
  decreasing_by all_goals (simp_wf; try omega)

theorem serializeMembers_nnl : ∀ kvs : List (String × Json), '\n' ∉ serializeMembers kvs
  | [] => by simp [serializeMembers]
  | kv :: kvs => by
      intro h
      rw [show serializeMembers (kv :: kvs) =
        ',' :: ' ' :: serializeMember kv ++ serializeMembers kvs from rfl] at h
      rcases List.mem_cons.mp h with h | h
      · exact absurd h (by decide)
      rcases List.mem_cons.mp h with h | h
      · exact absurd h (by decide)
      rcases List.mem_append.mp h with h | h
      · exact serializeMember_nnl kv h
      · exact serializeMembers_nnl kvs h
  termination_by kvs => sizeOf kvs
  decreasing_by all_goals (simp_wf; try omega)

end

theorem serialize_obj_head (kvs : List (String × Json)) :
    ∃ t, serialize (Json.obj kvs) = '{' :: t := by
  cases kvs with
  | nil => exact ⟨['}'], rfl⟩
  | cons kv kvs => exact ⟨serializeMember kv ++ serializeMembers kvs ++ ['}'], rfl⟩

theorem serialize_obj_last (kvs : List (String × Json)) :
    ∃ m, serialize (Json.obj kvs) = m ++ ['}'] := by
  cases kvs with
  | nil => exact ⟨['{'], rfl⟩
  | cons kv kvs =>
      exact ⟨'{' :: (serializeMember kv ++ serializeMembers kvs), rfl⟩

theorem wsOnly_append {a b : List Char} (ha : wsOnly a) (hb : wsOnly b) :
    wsOnly (a ++ b) := by
  intro c hc
  rcases List.mem_append.mp hc with h | h
  · exact ha c h
  · exact hb c h

theorem stripFencesAux_nil (flag : Bool) : stripFencesAux flag [] = [] := by
  rw [stripFencesAux.eq_def]

theorem pyStrip_sobj (kvs : List (String × Json)) :
    pyStrip (serialize (Json.obj kvs)) = serialize (Json.obj kvs) := by
  obtain ⟨t, hhead⟩ := serialize_obj_head kvs
  obtain ⟨m, hlast⟩ := serialize_obj_last kvs
  have := @pyStrip_of_ends [] [] (serialize (Json.obj kvs))
    (by intro c hc; simp at hc) (by intro c hc; simp at hc)
    ⟨'{', t, hhead, by decide⟩ ⟨m, '}', hlast, by decide⟩
  simpa using this

/-- The serialized object passes untouched through the fence-stripping
scan, with any trailing whitespace-plus-closing-fence deleted. -/
theorem stripFences_sobj_close (kvs : List (String × Json)) {w₂ : List Char}
    (hw₂ : wsOnly w₂) (flag : Bool)
    (hflag : flag = true → (serialize (Json.obj kvs)).head? ≠ some '`') :
    stripFencesAux flag (serialize (Json.obj kvs) ++ (w₂ ++ ['`', '`', '`'])) =
      serialize (Json.obj kvs) := by
  obtain ⟨m, hlast⟩ := serialize_obj_last kvs
  rw [scan_inert _ _ flag (serialize_nnl _) ⟨m, hlast⟩ hflag, scan_close hw₂]
  simp

/-- The serialized object alone passes untouched through the scan. -/
theorem stripFences_sobj (kvs : List (String × Json)) (flag : Bool)
    (hflag : flag = true → (serialize (Json.obj kvs)).head? ≠ some '`') :
    stripFencesAux flag (serialize (Json.obj kvs)) = serialize (Json.obj kvs) := by
  obtain ⟨m, hlast⟩ := serialize_obj_last kvs
  have := scan_inert (serialize (Json.obj kvs)) [] flag (serialize_nnl _) ⟨m, hlast⟩ hflag
  rw [List.append_nil] at this
  rw [this, stripFencesAux_nil]
  simp

theorem sobj_head_ne_backtick (kvs : List (String × Json)) :
    (serialize (Json.obj kvs)).head? ≠ some '`' := by
  obtain ⟨t, hhead⟩ := serialize_obj_head kvs
  rw [hhead]
  simp

/-- Extraction recovers a serialized JSON object embedded in arbitrary
surrounding whitespace and ```json code fencing: the initial strip puts
any opening fence at a line start, the `MULTILINE` substitution removes
the fences without touching the payload, and the cleaned text parses
directly. -/
theorem extractJson_embed (kvs : List (String × Json))
    (w0 w1 w2 w3 f1 f2 : List Char)
    (hw0 : wsOnly w0) (hw1 : wsOnly w1) (hw2 : wsOnly w2) (hw3 : wsOnly w3)
    (hf1 : f1 = [] ∨ f1 = ['`', '`', '`', 'j', 's', 'o', 'n'])
    (hf2 : f2 = [] ∨ f2 = ['`', '`', '`']) :
    extractJson (w0 ++ f1 ++ w1 ++ serialize (Json.obj kvs) ++ w2 ++ f2 ++ w3) =
      serialize (Json.obj kvs) := by
  obtain ⟨thead, hhead⟩ := serialize_obj_head kvs
  obtain ⟨mlast, hlast⟩ := serialize_obj_last kvs
  have hlooks : looksLikeJson (serialize (Json.obj kvs)) = true := by
    rw [looksLikeJson, parseJsonList_serialize]
    rfl
  have hfinish : ∀ cs : List Char,
      pyStrip (stripFences (pyStrip cs)) = serialize (Json.obj kvs) →
      extractJson cs = serialize (Json.obj kvs) := by
    intro cs hcs
    unfold extractJson
    rw [hcs]
    simp [hlooks]
  rcases hf1 with rfl | rfl <;> rcases hf2 with rfl | rfl
  · -- no fences: everything around the payload is whitespace
    apply hfinish
    have hsplit : w0 ++ [] ++ w1 ++ serialize (Json.obj kvs) ++ w2 ++ [] ++ w3 =
        (w0 ++ w1) ++ serialize (Json.obj kvs) ++ (w2 ++ w3) := by
      simp
    rw [hsplit, pyStrip_of_ends (wsOnly_append hw0 hw1) (wsOnly_append hw2 hw3)
      ⟨'{', thead, hhead, by decide⟩ ⟨mlast, '}', hlast, by decide⟩]
    rw [stripFences, stripFences_sobj kvs true (fun _ => sobj_head_ne_backtick kvs),
      pyStrip_sobj]
  · -- closing fence only
    apply hfinish
    have hsplit : w0 ++ [] ++ w1 ++ serialize (Json.obj kvs) ++ w2 ++ ['`', '`', '`'] ++ w3 =
        (w0 ++ w1) ++ (serialize (Json.obj kvs) ++ (w2 ++ ['`', '`', '`'])) ++ w3 := by
      simp
    rw [hsplit, pyStrip_of_ends (wsOnly_append hw0 hw1) hw3
      ⟨'{', thead ++ (w2 ++ ['`', '`', '`']), by rw [hhead]; simp, by decide⟩
      ⟨serialize (Json.obj kvs) ++ (w2 ++ ['`', '`']), '`', by simp, by decide⟩]
    rw [stripFences, stripFences_sobj_close kvs hw2 true
      (fun _ => sobj_head_ne_backtick kvs), pyStrip_sobj]
  · -- opening fence only
    apply hfinish
    have hsplit : w0 ++ ['`', '`', '`', 'j', 's', 'o', 'n'] ++ w1 ++
          serialize (Json.obj kvs) ++ w2 ++ [] ++ w3 =
        w0 ++ (['`', '`', '`', 'j', 's', 'o', 'n'] ++ (w1 ++ serialize (Json.obj kvs))) ++
          (w2 ++ w3) := by
      simp
    rw [hsplit, pyStrip_of_ends hw0 (wsOnly_append hw2 hw3)
      ⟨'`', ['`', '`', 'j', 's', 'o', 'n'] ++ (w1 ++ serialize (Json.obj kvs)), by simp,
        by decide⟩
      ⟨['`', '`', '`', 'j', 's', 'o', 'n'] ++ (w1 ++ mlast), '}', by rw [hlast]; simp,
        by decide⟩]
    rw [stripFences]
    rw [show ['`', '`', '`', 'j', 's', 'o', 'n'] ++ (w1 ++ serialize (Json.obj kvs)) =
      '`' :: '`' :: '`' :: 'j' :: 's' :: 'o' :: 'n' :: (w1 ++ ('{' :: thead)) from by
        rw [hhead]
        rfl]
    rw [stripFencesAux_start (fenceStart_fires hw1 (by decide))]
    rw [show ('{' :: thead) = serialize (Json.obj kvs) from hhead.symm]
    rw [stripFences_sobj kvs _ (fun _ => sobj_head_ne_backtick kvs), pyStrip_sobj]
  · -- both fences
    apply hfinish
    have hsplit : w0 ++ ['`', '`', '`', 'j', 's', 'o', 'n'] ++ w1 ++
          serialize (Json.obj kvs) ++ w2 ++ ['`', '`', '`'] ++ w3 =
        w0 ++ (['`', '`', '`', 'j', 's', 'o', 'n'] ++
          (w1 ++ (serialize (Json.obj kvs) ++ (w2 ++ ['`', '`', '`'])))) ++ w3 := by
      simp
    rw [hsplit, pyStrip_of_ends hw0 hw3
      ⟨'`', ['`', '`', 'j', 's', 'o', 'n'] ++
        (w1 ++ (serialize (Json.obj kvs) ++ (w2 ++ ['`', '`', '`']))), by simp, by decide⟩
      ⟨['`', '`', '`', 'j', 's', 'o', 'n'] ++
        (w1 ++ (serialize (Json.obj kvs) ++ (w2 ++ ['`', '`']))), '`', by simp, by decide⟩]
    rw [stripFences]
    rw [show ['`', '`', '`', 'j', 's', 'o', 'n'] ++
        (w1 ++ (serialize (Json.obj kvs) ++ (w2 ++ ['`', '`', '`']))) =
      '`' :: '`' :: '`' :: 'j' :: 's' :: 'o' :: 'n' ::
        (w1 ++ ('{' :: (thead ++ (w2 ++ ['`', '`', '`'])))) from by
        rw [hhead]; simp]
    rw [stripFencesAux_start (fenceStart_fires hw1 (by decide))]
    rw [show ('{' :: (thead ++ (w2 ++ ['`', '`', '`']))) =
      serialize (Json.obj kvs) ++ (w2 ++ ['`', '`', '`']) from by rw [hhead]; simp]
    rw [stripFences_sobj_close kvs hw2 _ (fun _ => sobj_head_ne_backtick kvs), pyStrip_sobj]

/-! ## The agents

Each agent's observable result depends on its inputs and on the raw text
the LLM oracle answers with; the prompt text itself only determines what
the oracle sees, so prompt-building inputs that cannot raise are not
parameters of the models.  Oracle answers are drawn from an `Env`
(one fresh answer per call site). -/

/-- `PlannerAgent.plan_request`: `json.loads` the oracle's answer
(`gemini_response["content"]`, already fence-cleaned by `generate_text`),
raising `ValueError` on malformation. -/
def plan_request (content : String) : Except PyErr Json :=
  match parseJson content with
  | some j => .ok j
  | none => .error (.valueError "Failed to parse Gemini response")

/-- `CoderAgent.generate_code`: re-apply the fence cleanup to the raw
answer and `json.loads` it, raising `ValueError` on the first parse
failure.  The step and previous results only shape the prompt. -/
def generate_code (raw : String) : Except PyErr Json :=
  match parseJsonList (cleanupText raw.data) with
  | some j => .ok j
  | none => .error (.valueError "CoderAgent: Failed to parse LLM response")

/-- Rendering of a JSON value into the reason string the engine prints;
string answers are passed through verbatim. -/
def reasonText : Json → String
  | .str s => s
  | j => String.mk (serialize j)

/-- The `str(e)` detail interpolated into `"Parsing error: "` messages
(the exact Python exception text is opaque to the model). -/
def parseErrorDetail : String := "malformed oracle answer"

/-- The verdict computed from the validator oracle's raw answer: the
parsed `is_valid` under Python truthiness with the reported reason, or
the `(False, "Parsing error: …")` degradation of the `except` branch when
the answer is not a JSON dict. -/
def verdictOf (raw : String) : Bool × String :=
  match parseJson raw with
  | some (Json.obj kvs) =>
      (pyTruthy ((getKey kvs "is_valid").getD (Json.bool false)),
        reasonText ((getKey kvs "reason").getD (Json.str "No reason provided.")))
  | some _ => (false, "Parsing error: " ++ parseErrorDetail)
  | none => (false, "Parsing error: " ++ parseErrorDetail)

/-- `StepManager.validate_result`: the `validation_rule` / `output`
lookups run before the `try` block and raise on non-dict inputs; the
oracle answer is parsed inside it, so a malformed answer (or one that is
not a dict) degrades to `(False, "Parsing error: …")`. -/
def validate_result (currentStep userResult : Json) (raw : String) :
    Except PyErr (Bool × String) := do
  let _ ← pyDictGet currentStep "validation_rule" (Json.str "")
  let _ ← pyDictGet userResult "output" (Json.str "")
  pure (verdictOf raw)

/-- `DebuggerAgent.debug_code`: extract and parse the answer; on parse
failure return the safe pass-through fallback built from the step and the
prior instruction; on a non-dict answer the `setdefault` attribute lookup
raises; otherwise fill the missing defaults. -/
def debug_code (step codeResult : Json) (raw : String) : Except PyErr Json :=
  match parseJsonList (extractJson raw.data) with
  | none => do
      let sid ← pyDictGet step "id" (Json.str "unknown")
      let code ← pyDictGet codeResult "code" (Json.str "")
      let lang ← pyDictGet codeResult "language" (Json.str "python")
      let exp ← pyDictGet codeResult "expected_output" (Json.str "")
      pure (Json.obj [("step_id", sid), ("error_type", Json.str "logic"),
        ("reasoning",
          Json.str "LLM returned malformed JSON; falling back to original code."),
        ("fixed_code", code), ("language", lang), ("expected_output", exp)])
  | some (Json.obj kvs) => do
      let sid ← pyDictGet step "id" (Json.str "unknown")
      let kvs1 := pySetDefault kvs "step_id" sid
      let lang ← pyDictGet codeResult "language" (Json.str "python")
      let kvs2 := pySetDefault kvs1 "language" lang
      let exp ← pyDictGet codeResult "expected_output" (Json.str "")
      pure (Json.obj (pySetDefault kvs2 "expected_output" exp))
  | some _ => .error .attributeError

/-- The `id` / `description` accesses performed on every planned step by
the plan-announcement loop of `execute_request` and by the
`steps_str` construction of `generate_summary`. -/
def checkSteps : List Json → Except PyErr Unit
  | [] => .ok ()
  | s :: rest => do
      let _ ← pyGetItem s "id"
      let _ ← pyGetItem s "description"
      checkSteps rest

/-- The step-result ledger: the Python dict `step_results`, keyed by the
step `id` values, insertion ordered. -/
def ledgerGet (L : List (Json × String)) (k : Json) : Option String :=
  (L.find? (fun kv => kv.1 = k)).map (·.2)

/-- Python dict assignment `step_results[k] = v`: update in place or
append. -/
def ledgerSet (L : List (Json × String)) (k : Json) (v : String) :
    List (Json × String) :=
  match ledgerGet L k with
  | some _ => L.map (fun kv => if kv.1 = k then (k, v) else kv)
  | none => L ++ [(k, v)]

/-- Python hashability of a JSON value used as a dict key. -/
def pyHashable : Json → Bool
  | .arr _ => false
  | .obj _ => false
  | _ => true

/-- The report returned for a given summarizer oracle answer: the parsed
answer verbatim, or the fallback report on parse failure. -/
def summaryValue (originalRequest : String) (plannedSteps : List Json)
    (raw : String) : Json :=
  match parseJson raw with
  | some j => j
  | none =>
      Json.obj [("original_request", Json.str originalRequest),
        ("steps_completed", Json.arr plannedSteps),
        ("key_results", Json.str "LLM summary failed"),
        ("total_summary", Json.str "Failed"),
        ("final_outcome", Json.str "Unknown"),
        ("warnings", Json.arr [])]

/-- The `steps_str` prompt construction of `generate_summary`: the
f-string evaluates, per planned step and left to right, `step["id"]`,
`step["description"]`, then `step_results.get(step["id"], "No result")`.
`dict.get` hashes its key, so an unhashable id (list or dict) raises
`TypeError`; the looked-up text only feeds the prompt. -/
def summarySteps (stepResults : List (Json × String)) : List Json → Except PyErr Unit
  | [] => .ok ()
  | s :: rest => do
      let _ ← pyGetItem s "id"
      let _ ← pyGetItem s "description"
      let sid ← pyGetItem s "id"
      if pyHashable sid then
        let _ := ledgerGet stepResults sid
        summarySteps stepResults rest
      else
        .error .typeError

/-- `SummarizerAgent.generate_summary`: build the prompt (re-accessing
each step's `id` and `description` and looking its id up in the results
ledger, which raises `TypeError` on an unhashable id), then parse the
oracle's answer and return it verbatim, or return the fallback report on
parse failure. -/
def generate_summary (originalRequest : String) (stepResults : List (Json × String))
    (plannedSteps : List Json) (raw : String) : Except PyErr Json := do
  summarySteps stepResults plannedSteps
  pure (summaryValue originalRequest plannedSteps raw)

/-! ## The orchestration engine

`execute_request` is modelled as a function from an oracle/executor
environment to a result (`Except` for a propagated Python exception, or
the summary report) together with an ordered trace of the engine's
observable actions.  `Env` supplies one fresh oracle answer per call
site: `coder i` for the generation at step index `i`, `debugger i r` for
repair attempt `r`, `validator i a` for validation attempt `a` (`0` for
the initial run, `r + 1` after repair `r`), `executor i a` for the
executor's response text to the corresponding `EXECUTE_CODE_REQUEST`. -/

/-- Oracle answers and executor responses for one run. -/
structure Env where
  planner : String
  coder : Nat → String
  debugger : Nat → Nat → String
  validator : Nat → Nat → String
  executor : Nat → Nat → String
  summarizer : String

/-- Observable engine actions. -/
inductive Event where
  | planned (n : Nat) : Event
  | snapshot (cursor : Nat) (ledger : List (Json × String)) : Event
  | stepBegin (i : Nat) : Event
  | execSend (code : Json) : Event
  | execRecv (response : String) : Event
  | validateCalled (i a : Nat) : Event
  | stepFailed (i : Nat) : Event
  | debugCalled (i r : Nat) : Event
  | aborted (i : Nat) : Event
  | summaryCalled (ledger : List (Json × String)) : Event
  | summaryDone : Event
  deriving Repr, DecidableEq

/-- Engine computations: a possibly-raising result plus the emitted
events. -/
def EvM (α : Type) : Type := Except PyErr α × List Event

instance : Monad EvM where
  pure a := (.ok a, [])
  bind m f :=
    match m with
    | (.error e, ev) => (.error e, ev)
    | (.ok a, ev) =>
        match f a with
        | (r, ev') => (r, ev ++ ev')

/-- Emit one event. -/
def evEmit (e : Event) : EvM Unit := (.ok (), [e])

/-- Lift a possibly-raising computation. -/
def evLift {α : Type} (x : Except PyErr α) : EvM α := (x, [])

/-- `MultiAgentOrchestrator._prompt_user_execution`: send the
`EXECUTE_CODE_REQUEST` carrying the instruction code, await exactly one
response, and report it as the outcome with `success` hard-coded to
`True`. -/
def prompt_user_execution (code : Json) (response : String) : EvM Json :=
  (.ok (Json.obj [("output", Json.str response), ("success", Json.bool true)]),
   [.execSend code, .execRecv response])

/-- The debug/retry loop of `execute_request` for the step at index `i`
(`while retries < max_retries`), counting down `left = max_retries -
retries`.  Returns the validated output on success, `none` when the
budget is exhausted. -/
def debugAttempts (env : Env) (i : Nat) (step : Json) :
    Nat → Json → String → EvM (Option String)
  | 0, _, _ => pure none
  | left + 1, lastCode, _reason => do
      let r := 2 - (left + 1)
      evEmit (.debugCalled i r)
      let fix ← evLift (debug_code step lastCode (env.debugger i r))
      let _ ← evLift (pyGetItem fix "reasoning")
      let fixedCode ← evLift (pyGetItem fix "fixed_code")
      let sid ← evLift (pyGetItem step "id")
      let lang ← evLift (pyGetItem fix "language")
      let reasoning ← evLift (pyDictGet fix "reasoning" (Json.str ""))
      let expected ← evLift (pyDictGet fix "expected_output" (Json.str ""))
      let fixedCodeResult := Json.obj [("step_id", sid), ("code", fixedCode),
        ("language", lang), ("reasoning", reasoning), ("expected_output", expected)]
      let userResult ← prompt_user_execution fixedCode (env.executor i (r + 1))
      evEmit (.validateCalled i (r + 1))
      let v ← evLift (validate_result step userResult (env.validator i (r + 1)))
      if v.1 then
        pure (some (env.executor i (r + 1)))
      else do
        evEmit (.stepFailed i)
        debugAttempts env i step left fixedCodeResult v.2

/-- The ledger write `step_results[current_step["id"]] = output` followed
by the cursor advance (`TypeError` on an unhashable id). -/
def recordResult (step : Json) (ledger : List (Json × String)) (out : String) :
    EvM (List (Json × String)) := do
  let sid ← evLift (pyGetItem step "id")
  if pyHashable sid then
    pure (ledgerSet ledger sid out)
  else
    evLift (.error .typeError)

/-- The main `while current_step_index < len(plan["steps"])` loop,
running at most `k` more iterations starting from index `idx`. -/
def stepsLoop (env : Env) (steps : List Json) :
    Nat → Nat → List (Json × String) → EvM (List (Json × String))
  | 0, _, ledger => pure ledger
  | k + 1, idx, ledger =>
      match steps[idx]? with
      | none => pure ledger
      | some step => do
          evEmit (.stepBegin idx)
          let codeResult ← evLift (generate_code (env.coder idx))
          let _ ← evLift (pyGetItem codeResult "reasoning")
          let code ← evLift (pyGetItem codeResult "code")
          let userResult ← prompt_user_execution code (env.executor idx 0)
          evEmit (.validateCalled idx 0)
          let v ← evLift (validate_result step userResult (env.validator idx 0))
          if v.1 then do
            let ledger' ← recordResult step ledger (env.executor idx 0)
            evEmit (.snapshot (idx + 1) ledger')
            stepsLoop env steps k (idx + 1) ledger'
          else do
            evEmit (.stepFailed idx)
            let res ← debugAttempts env idx step 2 codeResult v.2
            match res with
            | none => do
                evEmit (.aborted idx)
                pure ledger
            | some out => do
                let ledger' ← recordResult step ledger out
                evEmit (.snapshot (idx + 1) ledger')
                stepsLoop env steps k (idx + 1) ledger'

/-- `MultiAgentOrchestrator.execute_request`: plan, announce the plan
(accessing each step's `id` and `description`), run the step loop, and
generate exactly one summary. -/
def execute_request (env : Env) (userRequest : String) : EvM Json := do
  let plan ← evLift (plan_request env.planner)
  let stepsJ ← evLift (pyGetItem plan "steps")
  let es ← evLift (pyIter stepsJ)
  let _ ← evLift (checkSteps es)
  evEmit (.planned es.length)
  evEmit (.snapshot 0 [])
  let ledger ← stepsLoop env es es.length 0 []
  evEmit (.summaryCalled ledger)
  let summary ← evLift (generate_summary userRequest ledger es env.summarizer)
  evEmit .summaryDone
  pure summary

/-! ## Unfolding lemmas for engine computations -/

theorem evm_bind_eq_ok {α β : Type} {m : EvM α} {a : α} {ev : List Event}
    (h : m = (Except.ok a, ev)) (f : α → EvM β) :
    m >>= f = ((f a).1, ev ++ (f a).2) := by
  subst h
  rfl

theorem evm_bind_eq_err {α β : Type} {m : EvM α} {e : PyErr} {ev : List Event}
    (h : m = (Except.error e, ev)) (f : α → EvM β) :
    m >>= f = (Except.error e, ev) := by
  subst h
  rfl

theorem evLift_bind_ok {α β : Type} {x : Except PyErr α} {a : α}
    (h : x = Except.ok a) (f : α → EvM β) :
    evLift x >>= f = f a := by
  subst h
  show ((f a).1, [] ++ (f a).2) = f a
  simp

theorem evLift_bind_err {α β : Type} {x : Except PyErr α} {e : PyErr}
    (h : x = Except.error e) (f : α → EvM β) :
    evLift x >>= f = (Except.error e, []) := by
  subst h
  rfl

theorem evLift_ok_bind {α β : Type} (a : α) (f : α → EvM β) :
    evLift (Except.ok a : Except PyErr α) >>= f = f a :=
  evLift_bind_ok rfl f

theorem evLift_err_bind {α β : Type} (e : PyErr) (f : α → EvM β) :
    evLift (Except.error e : Except PyErr α) >>= f = (Except.error e, []) :=
  evLift_bind_err rfl f

theorem evEmit_bind {β : Type} (e : Event) (f : Unit → EvM β) :
    evEmit e >>= f = ((f ()).1, e :: (f ()).2) := rfl

theorem prompt_bind {β : Type} (code : Json) (resp : String) (f : Json → EvM β) :
    prompt_user_execution code resp >>= f =
      ((f (Json.obj [("output", Json.str resp), ("success", Json.bool true)])).1,
        Event.execSend code :: Event.execRecv resp ::
          (f (Json.obj [("output", Json.str resp), ("success", Json.bool true)])).2) := rfl

theorem evm_pure_eq {α : Type} (a : α) : (pure a : EvM α) = (Except.ok a, []) := rfl


theorem pyGetItem_obj {kvs : List (String × Json)} {k : String} {v : Json}
    (h : getKey kvs k = some v) : pyGetItem (Json.obj kvs) k = Except.ok v := by
  simp [pyGetItem, h]

theorem validate_result_obj (skvs ukvs : List (String × Json)) (raw : String) :
    validate_result (Json.obj skvs) (Json.obj ukvs) raw = Except.ok (verdictOf raw) := rfl

/-! ## Dictionary lemmas -/

theorem getKey_append (a b : List (String × Json)) (k : String) :
    getKey (a ++ b) k = ((getKey a k).map some).getD (getKey b k) := by
  unfold getKey
  cases hfa : List.find? (fun kv => kv.1 = k) a <;>
    simp [List.find?_append, hfa]

theorem getKey_pySetDefault_preserved {kvs : List (String × Json)} {k' : String}
    {w : Json} (h : getKey kvs k' = some w) (k : String) (v : Json) :
    getKey (pySetDefault kvs k v) k' = some w := by
  unfold pySetDefault
  cases hk : getKey kvs k with
  | some _ => exact h
  | none =>
      rw [getKey_append, h]
      rfl

theorem getKey_pySetDefault_isSome {kvs : List (String × Json)} (k : String) (v : Json) :
    (getKey (pySetDefault kvs k v) k).isSome = true := by
  unfold pySetDefault
  cases hk : getKey kvs k with
  | some w => simp [hk]
  | none =>
      rw [getKey_append, hk]
      simp [getKey]

theorem ledgerGet_append (a b : List (Json × String)) (k : Json) :
    ledgerGet (a ++ b) k = ((ledgerGet a k).map some).getD (ledgerGet b k) := by
  unfold ledgerGet
  cases hfa : List.find? (fun kv => kv.1 = k) a <;>
    simp [List.find?_append, hfa]

theorem ledgerSet_fresh {L : List (Json × String)} {k : Json}
    (h : ledgerGet L k = none) (v : String) : ledgerSet L k v = L ++ [(k, v)] := by
  unfold ledgerSet
  rw [h]

/-! ## Well-formedness of oracle answers -/

/-- The coder's answer parses to a dict carrying the `reasoning` and
`code` fields the engine reads. -/
def coderAnswerOk (raw : String) : Prop :=
  ∃ kvs reasn code, generate_code raw = Except.ok (Json.obj kvs) ∧
    getKey kvs "reasoning" = some reasn ∧ getKey kvs "code" = some code

/-- The debugger's answer either fails to parse (the safe fallback
applies) or parses to a dict carrying the `reasoning` and `fixed_code`
fields the engine reads. -/
def debuggerAnswerOk (raw : String) : Prop :=
  match parseJsonList (extractJson raw.data) with
  | none => True
  | some (Json.obj kvs) =>
      (getKey kvs "reasoning").isSome = true ∧ (getKey kvs "fixed_code").isSome = true
  | some _ => False

/-- The run's plan decodes to the step list `es`. -/
def plansTo (env : Env) (es : List Json) : Prop :=
  ∃ plan stepsJ, plan_request env.planner = Except.ok plan ∧
    pyGetItem plan "steps" = Except.ok stepsJ ∧ pyIter stepsJ = Except.ok es

/-- Every step is a dict with a hashable `id`. -/
def stepIdsOk (es : List Json) : Prop :=
  ∀ s ∈ es, ∃ kvs sid, s = Json.obj kvs ∧ getKey kvs "id" = some sid ∧
    pyHashable sid = true

/-- The `id` value of a step (`Json.null` when absent). -/
def stepId (s : Json) : Json :=
  match pyGetItem s "id" with
  | .ok v => v
  | .error _ => Json.null

/-- The `id` of the step at plan index `i`. -/
def stepIdOf (es : List Json) (i : Nat) : Json :=
  stepId (es.getD i Json.null)

/-- The ledger contents after the first `j` steps succeed with the
initial-attempt executor responses. -/
def runLedger (env : Env) (es : List Json) : Nat → List (Json × String)
  | 0 => []
  | j + 1 => ledgerSet (runLedger env es j) (stepIdOf es j) (env.executor j 0)

/-- The debugger's behaviour is benign when the answer is well-formed:
it returns a dict carrying `reasoning`, `fixed_code` and `language`. -/
theorem debug_code_ok {skvs lkvs : List (String × Json)} {raw : String}
    (h : debuggerAnswerOk raw) :
    ∃ fkvs, debug_code (Json.obj skvs) (Json.obj lkvs) raw = Except.ok (Json.obj fkvs) ∧
      (getKey fkvs "reasoning").isSome = true ∧
      (getKey fkvs "fixed_code").isSome = true ∧
      (getKey fkvs "language").isSome = true := by
  unfold debuggerAnswerOk at h
  unfold debug_code
  split at h
  · refine ⟨_, rfl, ?_, ?_, ?_⟩ <;> rfl
  · rename_i kvs hp
    obtain ⟨hr, hf⟩ := h
    obtain ⟨reasn, hr⟩ := Option.isSome_iff_exists.mp hr
    obtain ⟨fcode, hf⟩ := Option.isSome_iff_exists.mp hf
    refine ⟨_, rfl, ?_, ?_, ?_⟩
    · rw [getKey_pySetDefault_preserved
        (getKey_pySetDefault_preserved (getKey_pySetDefault_preserved hr _ _) _ _) _ _]
      rfl
    · rw [getKey_pySetDefault_preserved
        (getKey_pySetDefault_preserved (getKey_pySetDefault_preserved hf _ _) _ _) _ _]
      rfl
    · obtain ⟨w, hw⟩ := Option.isSome_iff_exists.mp
        (@getKey_pySetDefault_isSome
          (pySetDefault kvs "step_id" ((getKey skvs "id").getD (Json.str "unknown")))
          "language" ((getKey lkvs "language").getD (Json.str "python")))
      rw [getKey_pySetDefault_preserved hw _ _]
      rfl
  · exact h.elim

/-! ## Run lemmas for the engine -/

theorem pyDictGet_obj (kvs : List (String × Json)) (k : String) (d : Json) :
    pyDictGet (Json.obj kvs) k d = Except.ok ((getKey kvs k).getD d) := rfl

theorem recordResult_ok {skvs : List (String × Json)} {sid : Json}
    (hsid : getKey skvs "id" = some sid) (hhash : pyHashable sid = true)
    (L : List (Json × String)) (out : String) :
    recordResult (Json.obj skvs) L out = (Except.ok (ledgerSet L sid out), []) := by
  unfold recordResult
  rw [evLift_bind_ok (pyGetItem_obj hsid), hhash, if_pos rfl]
  rfl

/-- One successful first-try step of the main loop: the emitted events
and the recursive continuation with the advanced cursor and the updated
ledger. -/
theorem stepsLoop_step_ok {env : Env} {steps : List Json} {k idx : Nat}
    {L : List (Json × String)}
    {step : Json} {skvs ckvs : List (String × Json)}
    {sid reasn code : Json}
    (hstep : steps[idx]? = some step)
    (hobj : step = Json.obj skvs)
    (hcoder : generate_code (env.coder idx) = .ok (Json.obj ckvs))
    (hreason : getKey ckvs "reasoning" = some reasn)
    (hcode : getKey ckvs "code" = some code)
    (hsid : getKey skvs "id" = some sid)
    (hhash : pyHashable sid = true)
    (hvalid : (verdictOf (env.validator idx 0)).1 = true) :
    stepsLoop env steps (k + 1) idx L =
      ((stepsLoop env steps k (idx + 1) (ledgerSet L sid (env.executor idx 0))).1,
        [.stepBegin idx, .execSend code, .execRecv (env.executor idx 0),
         .validateCalled idx 0,
         .snapshot (idx + 1) (ledgerSet L sid (env.executor idx 0))] ++
        (stepsLoop env steps k (idx + 1) (ledgerSet L sid (env.executor idx 0))).2) := by
  subst hobj
  have hrec : recordResult (Json.obj skvs) L (env.executor idx 0) =
      (Except.ok (ledgerSet L sid (env.executor idx 0)), []) :=
    recordResult_ok hsid hhash L (env.executor idx 0)
  rw [stepsLoop, hstep]
  simp only [evEmit_bind, evLift_bind_ok hcoder, evLift_bind_ok (pyGetItem_obj hreason),
    evLift_bind_ok (pyGetItem_obj hcode), prompt_bind,
    evLift_bind_ok (validate_result_obj skvs _ _), hvalid, if_pos,
    evm_bind_eq_ok hrec]
  simp

/-- The events the debug/retry loop may emit. -/
def debugEvt (i : Nat) : Event → Bool
  | .debugCalled j _ => j = i
  | .execSend _ => true
  | .execRecv _ => true
  | .validateCalled j _ => j = i
  | .stepFailed j => j = i
  | _ => false

/-- The debug/retry loop never raises when the step is a dict with an
`id` and the debugger's answers are well-formed, and it emits only
debug-family events. -/
theorem debugAttempts_total (env : Env) (i : Nat) (skvs : List (String × Json))
    (hdbg : ∀ r, debuggerAnswerOk (env.debugger i r))
    (hsid : ∃ sid, getKey skvs "id" = some sid) :
    ∀ left (lkvs : List (String × Json)) reason,
      ∃ o tr, debugAttempts env i (Json.obj skvs) left (Json.obj lkvs) reason =
        (Except.ok o, tr) ∧ tr.all (debugEvt i) = true := by
  intro left
  induction left with
  | zero => exact fun lkvs reason => ⟨none, [], rfl, rfl⟩
  | succ left ih =>
      intro lkvs reason
      obtain ⟨sid, hsid'⟩ := hsid
      obtain ⟨fkvs, hfix, hro, hfo, hlo⟩ :=
        @debug_code_ok skvs lkvs _ (hdbg (2 - (left + 1)))
      obtain ⟨reasn, hr⟩ := Option.isSome_iff_exists.mp hro
      obtain ⟨fcode, hfc⟩ := Option.isSome_iff_exists.mp hfo
      obtain ⟨lang, hl⟩ := Option.isSome_iff_exists.mp hlo
      rw [debugAttempts]
      simp only [evEmit_bind, evLift_bind_ok hfix, evLift_bind_ok (pyGetItem_obj hr),
        evLift_bind_ok (pyGetItem_obj hfc), evLift_bind_ok (pyGetItem_obj hsid'),
        evLift_bind_ok (pyGetItem_obj hl), evLift_bind_ok (pyDictGet_obj fkvs _ _),
        prompt_bind, evLift_bind_ok (validate_result_obj skvs _ _)]
      by_cases hv : (verdictOf (env.validator i (2 - (left + 1) + 1))).1
      · rw [if_pos hv]
        refine ⟨some (env.executor i (2 - (left + 1) + 1)), _, rfl, ?_⟩
        simp [debugEvt, evm_pure_eq]
      · rw [if_neg hv]
        obtain ⟨o, tr, hEq, hall⟩ := ih
          [("step_id", sid), ("code", fcode), ("language", lang),
           ("reasoning", (getKey fkvs "reasoning").getD (Json.str "")),
           ("expected_output", (getKey fkvs "expected_output").getD (Json.str ""))]
          (verdictOf (env.validator i (2 - (left + 1) + 1))).2
        simp only [hEq]
        refine ⟨o, _, rfl, ?_⟩
        simp [debugEvt, hall]

/-- When every validation verdict for step `i` is negative, the two
budgeted repair attempts both run and fail, and the loop reports
exhaustion: exactly the events of two debug rounds are emitted. -/
theorem debugAttempts_exhaust {env : Env} {i : Nat} {skvs lkvs : List (String × Json)}
    {reason : String}
    (hdbg : ∀ r, debuggerAnswerOk (env.debugger i r))
    (hsid : ∃ sid, getKey skvs "id" = some sid)
    (hbad : ∀ a, (verdictOf (env.validator i a)).1 = false) :
    ∃ c1 c2, debugAttempts env i (Json.obj skvs) 2 (Json.obj lkvs) reason =
      (Except.ok none,
       [.debugCalled i 0, .execSend c1, .execRecv (env.executor i 1),
        .validateCalled i 1, .stepFailed i,
        .debugCalled i 1, .execSend c2, .execRecv (env.executor i 2),
        .validateCalled i 2, .stepFailed i]) := by
  obtain ⟨sid, hsid'⟩ := hsid
  obtain ⟨fkvs, hfix1, hro1, hfo1, hlo1⟩ :=
    @debug_code_ok skvs lkvs _ (hdbg 0)
  obtain ⟨r1, hr1⟩ := Option.isSome_iff_exists.mp hro1
  obtain ⟨c1, hc1⟩ := Option.isSome_iff_exists.mp hfo1
  obtain ⟨l1, hl1⟩ := Option.isSome_iff_exists.mp hlo1
  obtain ⟨gkvs, hfix2, hro2, hfo2, hlo2⟩ :=
    @debug_code_ok skvs
      [("step_id", sid), ("code", c1), ("language", l1),
        ("reasoning", (getKey fkvs "reasoning").getD (Json.str "")),
        ("expected_output", (getKey fkvs "expected_output").getD (Json.str ""))]
      _ (hdbg 1)
  obtain ⟨r2, hr2⟩ := Option.isSome_iff_exists.mp hro2
  obtain ⟨c2, hc2⟩ := Option.isSome_iff_exists.mp hfo2
  obtain ⟨l2, hl2⟩ := Option.isSome_iff_exists.mp hlo2
  refine ⟨c1, c2, ?_⟩
  have hbase : ∀ (lk : List (String × Json)) (r : String),
      debugAttempts env i (Json.obj skvs) 0 (Json.obj lk) r = (Except.ok none, []) :=
    fun _ _ => rfl
  rw [debugAttempts]
  norm_num
  simp only [evEmit_bind, evLift_bind_ok hfix1, evLift_bind_ok (pyGetItem_obj hr1),
    evLift_bind_ok (pyGetItem_obj hc1), evLift_bind_ok (pyGetItem_obj hsid'),
    evLift_bind_ok (pyGetItem_obj hl1), evLift_bind_ok (pyDictGet_obj fkvs _ _),
    prompt_bind, evLift_bind_ok (validate_result_obj skvs _ _), hbad 1,
    Bool.false_eq_true, if_false]
  rw [debugAttempts]
  norm_num
  simp only [evEmit_bind, evLift_bind_ok hfix2, evLift_bind_ok (pyGetItem_obj hr2),
    evLift_bind_ok (pyGetItem_obj hc2), evLift_bind_ok (pyGetItem_obj hsid'),
    evLift_bind_ok (pyGetItem_obj hl2), evLift_bind_ok (pyDictGet_obj gkvs _ _),
    prompt_bind, evLift_bind_ok (validate_result_obj skvs _ _), hbad 2,
    Bool.false_eq_true, if_false, hbase]

/-- A step that fails validation on the initial attempt and on both
repair attempts aborts the run: the loop returns the incoming ledger
unchanged after emitting the failure and abort events. -/
theorem stepsLoop_step_abort {env : Env} {steps : List Json} {k idx : Nat}
    {L : List (Json × String)} {step : Json} {skvs ckvs : List (String × Json)}
    {reasn code : Json}
    (hstep : steps[idx]? = some step)
    (hobj : step = Json.obj skvs)
    (hcoder : generate_code (env.coder idx) = .ok (Json.obj ckvs))
    (hreason : getKey ckvs "reasoning" = some reasn)
    (hcode : getKey ckvs "code" = some code)
    (hsid : ∃ sid, getKey skvs "id" = some sid)
    (hdbg : ∀ r, debuggerAnswerOk (env.debugger idx r))
    (hbad : ∀ a, (verdictOf (env.validator idx a)).1 = false) :
    ∃ c1 c2, stepsLoop env steps (k + 1) idx L =
      (Except.ok L,
       [.stepBegin idx, .execSend code, .execRecv (env.executor idx 0),
        .validateCalled idx 0, .stepFailed idx,
        .debugCalled idx 0, .execSend c1, .execRecv (env.executor idx 1),
        .validateCalled idx 1, .stepFailed idx,
        .debugCalled idx 1, .execSend c2, .execRecv (env.executor idx 2),
        .validateCalled idx 2, .stepFailed idx,
        .aborted idx]) := by
  subst hobj
  obtain ⟨c1, c2, hEx⟩ := @debugAttempts_exhaust env idx skvs ckvs
      ((verdictOf (env.validator idx 0)).2) hdbg hsid hbad
  refine ⟨c1, c2, ?_⟩
  rw [stepsLoop, hstep]
  simp only [evEmit_bind, evLift_bind_ok hcoder, evLift_bind_ok (pyGetItem_obj hreason),
    evLift_bind_ok (pyGetItem_obj hcode), prompt_bind,
    evLift_bind_ok (validate_result_obj skvs _ _), hbad 0, Bool.false_eq_true, if_false,
    evm_bind_eq_ok hEx, evm_pure_eq]
  rfl

theorem except_ok_bind {α β : Type} (a : α) (f : α → Except PyErr β) :
    (Except.ok a : Except PyErr α) >>= f = f a := rfl

theorem except_err_bind {α β : Type} (e : PyErr) (f : α → Except PyErr β) :
    (Except.error e : Except PyErr α) >>= f = Except.error e := rfl

/-- With dict steps carrying hashable ids and descriptions, the prompt
construction of `generate_summary` cannot raise, whatever the ledger
holds. -/
theorem summarySteps_ok (L : List (Json × String)) :
    ∀ {es : List Json}, stepIdsOk es → checkSteps es = Except.ok () →
      summarySteps L es = Except.ok () := by
  intro es
  induction es with
  | nil => intro _ _; rfl
  | cons s rest ih =>
      intro hids hchk
      obtain ⟨skvs, sid, hobj, hsid, hhash⟩ := hids s (by simp)
      subst hobj
      rw [checkSteps, pyGetItem_obj hsid, except_ok_bind] at hchk
      cases hd : pyGetItem (Json.obj skvs) "description" with
      | error e =>
          rw [hd, except_err_bind] at hchk
          exact absurd hchk (by simp)
      | ok d =>
          rw [hd, except_ok_bind] at hchk
          rw [summarySteps]
          simp only [pyGetItem_obj hsid, hd, except_ok_bind, hhash, if_pos]
          exact ih (fun t ht => hids t (by simp [ht])) hchk

/-- An unhashable step id (here a list) makes `generate_summary` raise
`TypeError` from the ledger lookup of the prompt construction. -/
theorem generate_summary_unhashable (req : String) (L : List (Json × String))
    (raw : String) :
    generate_summary req L
        [Json.obj [("id", Json.arr []), ("description", Json.str "d")]] raw =
      Except.error PyErr.typeError := rfl

/-- Assembly of a whole run from a resolved main loop: the planning
events, the loop's trace, and exactly one summarization. -/
theorem execute_request_run {env : Env} {req : String} {es : List Json}
    (hplan : plansTo env es) (hchk : checkSteps es = .ok ())
    (hids : stepIdsOk es)
    {L : List (Json × String)} {tr : List Event}
    (hloop : stepsLoop env es es.length 0 [] = (Except.ok L, tr)) :
    execute_request env req =
      (Except.ok (summaryValue req es env.summarizer),
       .planned es.length :: .snapshot 0 [] :: tr ++
       [.summaryCalled L, .summaryDone]) := by
  obtain ⟨plan, stepsJ, hp, hs, hi⟩ := hplan
  have hsum : generate_summary req L es env.summarizer =
      Except.ok (summaryValue req es env.summarizer) := by
    unfold generate_summary
    rw [summarySteps_ok L hids hchk]
    rfl
  unfold execute_request
  rw [evLift_bind_ok hp, evLift_bind_ok hs, evLift_bind_ok hi, evLift_bind_ok hchk]
  simp only [evEmit_bind, evm_bind_eq_ok hloop, evLift_bind_ok hsum, evm_pure_eq]
  rfl

/-- Recognizer for repair-attempt events. -/
def isDebugCall : Event → Bool
  | .debugCalled _ _ => true
  | _ => false

/-- Main-loop run in which steps before `k` validate first try and step
`k` never validates: starting anywhere at or before `k` with the
matching ledger, the loop ends at `k` with exactly two repair attempts,
an abort, and no later step started. -/
theorem stepsLoop_c2 (env : Env) (es : List Json) (k : Nat)
    (hk : k < es.length) (hids : stepIdsOk es)
    (hcoder : ∀ i, i ≤ k → coderAnswerOk (env.coder i))
    (hdbg : ∀ r, debuggerAnswerOk (env.debugger k r))
    (hpre : ∀ i, i < k → (verdictOf (env.validator i 0)).1 = true)
    (hbad : ∀ a, (verdictOf (env.validator k a)).1 = false) :
    ∀ d j, j + d = k →
      ∃ tr, stepsLoop env es (es.length - j) j (runLedger env es j) =
          (Except.ok (runLedger env es k), tr) ∧
        tr.countP (fun e => isDebugCall e) = 2 ∧ Event.aborted k ∈ tr ∧
        (∀ i, k < i → Event.stepBegin i ∉ tr) := by
  intro d
  induction d with
  | zero =>
      intro j hj
      obtain rfl : j = k := by omega
      obtain ⟨skvs, sid, hobj, hsid, hhash⟩ := hids es[j] (List.getElem_mem hk)
      obtain ⟨ckvs, reasn, code, hgen, hrsn, hcd⟩ := hcoder j le_rfl
      have hsome : es[j]? = some es[j] := List.getElem?_eq_getElem hk
      have hm : es.length - j = (es.length - j - 1) + 1 := by omega
      rw [hm]
      obtain ⟨c1, c2, htr⟩ := stepsLoop_step_abort (L := runLedger env es j)
        hsome hobj hgen hrsn hcd ⟨sid, hsid⟩ hdbg hbad
      rw [htr]
      refine ⟨_, rfl, ?_, ?_, ?_⟩
      · simp [isDebugCall]
      · simp
      · intro i hi
        simp
        omega
  | succ d ih =>
      intro j hj
      have hjk : j < k := by omega
      have hjlen : j < es.length := by omega
      obtain ⟨skvs, sid, hobj, hsid, hhash⟩ := hids es[j] (List.getElem_mem hjlen)
      obtain ⟨ckvs, reasn, code, hgen, hrsn, hcd⟩ := hcoder j (by omega)
      have hsome : es[j]? = some es[j] := List.getElem?_eq_getElem hjlen
      have hm : es.length - j = (es.length - (j + 1)) + 1 := by omega
      have hrun : ledgerSet (runLedger env es j) sid (env.executor j 0) =
          runLedger env es (j + 1) := by
        rw [runLedger]
        congr 1
        rw [stepIdOf, List.getD_eq_getElem es Json.null hjlen, hobj]
        simp [stepId, pyGetItem, hsid]
      obtain ⟨tr', heq', hcount', habort', hbegin'⟩ := ih (j + 1) (by omega)
      rw [hm, stepsLoop_step_ok hsome hobj hgen hrsn hcd hsid hhash (hpre j hjk), hrun,
        heq']
      refine ⟨_, rfl, ?_, ?_, ?_⟩
      · simp [isDebugCall]
        exact hcount'
      · simp [habort']
      · intro i hi
        simp [hbegin' i hi]
        omega

/-- The main loop never raises and never emits `summaryDone` when the
plan's steps have hashable ids and the coder's and debugger's answers are
well-formed. -/
theorem stepsLoop_total (env : Env) (es : List Json)
    (hids : stepIdsOk es)
    (hcoder : ∀ i, coderAnswerOk (env.coder i))
    (hdbg : ∀ i r, debuggerAnswerOk (env.debugger i r)) :
    ∀ n idx L, ∃ L' tr, stepsLoop env es n idx L = (Except.ok L', tr) ∧
      Event.summaryDone ∉ tr := by
  intro n
  induction n with
  | zero => exact fun idx L => ⟨L, [], rfl, by simp⟩
  | succ n ih =>
      intro idx L
      cases hstep : es[idx]? with
      | none =>
          rw [stepsLoop, hstep]
          exact ⟨L, [], rfl, by simp⟩
      | some step =>
          obtain ⟨skvs, sid, hobj, hsid, hhash⟩ :=
            hids step (List.getElem?_mem hstep)
          subst hobj
          obtain ⟨ckvs, reasn, code, hgen, hreason, hcode⟩ := hcoder idx
          rw [stepsLoop, hstep]
          simp only [evEmit_bind, evLift_bind_ok hgen,
            evLift_bind_ok (pyGetItem_obj hreason), evLift_bind_ok (pyGetItem_obj hcode),
            prompt_bind, evLift_bind_ok (validate_result_obj skvs _ _)]
          by_cases hv : (verdictOf (env.validator idx 0)).1
          · rw [if_pos hv]
            have hrec := recordResult_ok hsid hhash L (env.executor idx 0)
            obtain ⟨L', tr, hEq, hnot⟩ := ih (idx + 1) (ledgerSet L sid (env.executor idx 0))
            rw [evm_bind_eq_ok hrec]
            simp only [evEmit_bind, hEq]
            exact ⟨L', _, rfl, by simp [hnot]⟩
          · rw [if_neg hv]
            obtain ⟨o, trD, hEqD, hallD⟩ :=
              debugAttempts_total env idx skvs (hdbg idx) ⟨sid, hsid⟩ 2 ckvs
                (verdictOf (env.validator idx 0)).2
            rw [evm_bind_eq_ok hEqD]
            have hDnot : Event.summaryDone ∉ trD := by
              intro hmem
              have := List.all_eq_true.mp hallD _ hmem
              simp [debugEvt] at this
            cases o with
            | none =>
                simp only [evEmit_bind, evm_pure_eq]
                refine ⟨L, _, rfl, ?_⟩
                simp [hDnot]
            | some out =>
                have hrec := recordResult_ok hsid hhash L out
                obtain ⟨L', tr, hEq, hnot⟩ := ih (idx + 1) (ledgerSet L sid out)
                simp only [evm_bind_eq_ok hrec, evEmit_bind, hEq]
                refine ⟨L', _, rfl, ?_⟩
                simp [hDnot, hnot]

/-! ## Channel alternation -/

/-- Operations on the executor channel. -/
inductive COp where
  | send : COp
  | recv : COp
  deriving Repr, DecidableEq

/-- The channel operation (if any) an event performs. -/
def chanOp? : Event → Option COp
  | .execSend _ => some .send
  | .execRecv _ => some .recv
  | _ => none

/-- The channel operations of a trace, in order. -/
def chanOps (tr : List Event) : List COp := tr.filterMap chanOp?

/-- Strict request/response alternation: a sequence of complete
send–receive pairs, never two outstanding sends. -/
inductive PairedSR : List COp → Prop where
  | nil : PairedSR []
  | pair {rest : List COp} : PairedSR rest → PairedSR (COp.send :: COp.recv :: rest)

theorem chanOps_append (a b : List Event) :
    chanOps (a ++ b) = chanOps a ++ chanOps b := by
  simp [chanOps]

theorem PairedSR_append {a b : List COp} (ha : PairedSR a) (hb : PairedSR b) :
    PairedSR (a ++ b) := by
  induction ha with
  | nil => simpa using hb
  | pair _ ih => simpa using PairedSR.pair ih

theorem paired_bind {α β : Type} {m : EvM α} {f : α → EvM β}
    (hm : PairedSR (chanOps m.2)) (hf : ∀ a, PairedSR (chanOps ((f a).2))) :
    PairedSR (chanOps ((m >>= f)).2) := by
  cases hr : m.1 with
  | error e =>
      have hme : m = (Except.error e, m.2) := by rw [← hr]; rfl
      rw [evm_bind_eq_err hme]
      exact hm
  | ok a =>
      have hmo : m = (Except.ok a, m.2) := by rw [← hr]; rfl
      rw [evm_bind_eq_ok hmo]
      show PairedSR (chanOps (m.2 ++ (f a).2))
      rw [chanOps_append]
      exact PairedSR_append hm (hf a)

/-- Resolution of the ledger write: either it raises (no id, unhashable
id) or it appends/updates under the step's id. -/
theorem recordResult_cases (s : Json) (L : List (Json × String)) (o : String) :
    (∃ e, recordResult s L o = (Except.error e, [])) ∨
    (∃ sid, pyGetItem s "id" = Except.ok sid ∧ pyHashable sid = true ∧
      recordResult s L o = (Except.ok (ledgerSet L sid o), [])) := by
  unfold recordResult
  cases hs : pyGetItem s "id" with
  | error e =>
      left
      exact ⟨e, by rw [evLift_bind_err rfl]⟩
  | ok sid =>
      by_cases hh : pyHashable sid = true
      · right
        refine ⟨sid, rfl, hh, ?_⟩
        rw [evLift_bind_ok rfl, if_pos hh]
        rfl
      · left
        refine ⟨.typeError, ?_⟩
        rw [evLift_bind_ok rfl, if_neg hh]
        rfl

theorem recordResult_paired (s : Json) (L : List (Json × String)) (o : String) :
    PairedSR (chanOps (recordResult s L o).2) := by
  rcases recordResult_cases s L o with ⟨e, he⟩ | ⟨sid, _, _, he⟩ <;> rw [he] <;>
    exact PairedSR.nil

/-- Every debug/retry loop run alternates send and receive strictly. -/
theorem debugAttempts_paired (env : Env) (i : Nat) (step : Json) :
    ∀ left lastCode reason,
      PairedSR (chanOps (debugAttempts env i step left lastCode reason).2) := by
  intro left
  induction left with
  | zero => intro _ _; exact PairedSR.nil
  | succ left ih =>
      intro lastCode reason
      rw [debugAttempts]
      refine paired_bind PairedSR.nil fun _ => ?_
      refine paired_bind PairedSR.nil fun fix => ?_
      refine paired_bind PairedSR.nil fun _ => ?_
      refine paired_bind PairedSR.nil fun fixedCode => ?_
      refine paired_bind PairedSR.nil fun sid => ?_
      refine paired_bind PairedSR.nil fun lang => ?_
      refine paired_bind PairedSR.nil fun reasoning => ?_
      refine paired_bind PairedSR.nil fun expected => ?_
      refine paired_bind (PairedSR.pair PairedSR.nil) fun userResult => ?_
      refine paired_bind PairedSR.nil fun _ => ?_
      refine paired_bind PairedSR.nil fun v => ?_
      split
      · exact PairedSR.nil
      · exact paired_bind PairedSR.nil fun _ => ih _ _

/-- Every main-loop run alternates send and receive strictly. -/
theorem stepsLoop_paired (env : Env) (steps : List Json) :
    ∀ n idx L, PairedSR (chanOps (stepsLoop env steps n idx L).2) := by
  intro n
  induction n with
  | zero => intro _ _; exact PairedSR.nil
  | succ n ih =>
      intro idx L
      rw [stepsLoop]
      cases hstep : steps[idx]? with
      | none => exact PairedSR.nil
      | some step =>
          refine paired_bind PairedSR.nil fun _ => ?_
          refine paired_bind PairedSR.nil fun codeResult => ?_
          refine paired_bind PairedSR.nil fun _ => ?_
          refine paired_bind PairedSR.nil fun code => ?_
          refine paired_bind (PairedSR.pair PairedSR.nil) fun userResult => ?_
          refine paired_bind PairedSR.nil fun _ => ?_
          refine paired_bind PairedSR.nil fun v => ?_
          split
          · refine paired_bind (recordResult_paired _ _ _) fun ledger' => ?_
            refine paired_bind PairedSR.nil fun _ => ?_
            exact ih _ _
          · refine paired_bind PairedSR.nil fun _ => ?_
            refine paired_bind (debugAttempts_paired env idx step 2 codeResult v.2)
              fun res => ?_
            cases res with
            | none => exact paired_bind PairedSR.nil fun _ => PairedSR.nil
            | some out =>
                refine paired_bind (recordResult_paired _ _ _) fun ledger' => ?_
                refine paired_bind PairedSR.nil fun _ => ?_
                exact ih _ _

/-- C8: in every run of `execute_request`, regardless of oracle answers
or raised errors, the operations on the executor channel form complete
send–receive pairs: each `EXECUTE_CODE_REQUEST` send is followed by
awaiting exactly one response before any further send — strict
request/response alternation with at most one in-flight instruction. -/
theorem c8_channel_alternation (env : Env) (req : String) :
    PairedSR (chanOps (execute_request env req).2) := by
  unfold execute_request
  refine paired_bind PairedSR.nil fun plan => ?_
  refine paired_bind PairedSR.nil fun stepsJ => ?_
  refine paired_bind PairedSR.nil fun es => ?_
  refine paired_bind PairedSR.nil fun _ => ?_
  refine paired_bind PairedSR.nil fun _ => ?_
  refine paired_bind PairedSR.nil fun _ => ?_
  refine paired_bind (stepsLoop_paired env es es.length 0 []) fun ledger => ?_
  refine paired_bind PairedSR.nil fun _ => ?_
  refine paired_bind PairedSR.nil fun summary => ?_
  exact PairedSR.nil

/-! ## Snapshot extraction -/

/-- The cursor/ledger snapshot (if any) an event records. -/
def snap? : Event → Option (Nat × List (Json × String))
  | .snapshot c L => some (c, L)
  | _ => none

/-- The cursor/ledger snapshots of a trace, in order. -/
def snapshots (tr : List Event) : List (Nat × List (Json × String)) :=
  tr.filterMap snap?

theorem snapshots_append (a b : List Event) :
    snapshots (a ++ b) = snapshots a ++ snapshots b := by
  simp [snapshots]

theorem evm_all_bind {α β : Type} {p : Event → Bool} {m : EvM α} {f : α → EvM β}
    (hm : m.2.all p = true) (hf : ∀ a, ((f a).2).all p = true) :
    (((m >>= f)).2).all p = true := by
  cases hr : m.1 with
  | error e =>
      have hme : m = (Except.error e, m.2) := by rw [← hr]; rfl
      rw [evm_bind_eq_err hme]
      exact hm
  | ok a =>
      have hmo : m = (Except.ok a, m.2) := by rw [← hr]; rfl
      rw [evm_bind_eq_ok hmo]
      show (m.2 ++ (f a).2).all p = true
      rw [List.all_append]
      simp [hm, hf a]

/-- The debug/retry loop records no cursor/ledger snapshot. -/
theorem debugAttempts_nosnap (env : Env) (i : Nat) (step : Json) :
    ∀ left lastCode reason,
      ((debugAttempts env i step left lastCode reason).2).all
        (fun e => (snap? e).isNone) = true := by
  intro left
  induction left with
  | zero => intro _ _; rfl
  | succ left ih =>
      intro lastCode reason
      rw [debugAttempts]
      refine evm_all_bind rfl fun _ => ?_
      refine evm_all_bind rfl fun fix => ?_
      refine evm_all_bind rfl fun _ => ?_
      refine evm_all_bind rfl fun fixedCode => ?_
      refine evm_all_bind rfl fun sid => ?_
      refine evm_all_bind rfl fun lang => ?_
      refine evm_all_bind rfl fun reasoning => ?_
      refine evm_all_bind rfl fun expected => ?_
      refine evm_all_bind rfl fun userResult => ?_
      refine evm_all_bind rfl fun _ => ?_
      refine evm_all_bind rfl fun v => ?_
      split
      · rfl
      · exact evm_all_bind rfl fun _ => ih _ _

theorem snapshots_eq_nil {tr : List Event}
    (h : tr.all (fun e => (snap? e).isNone) = true) : snapshots tr = [] := by
  refine List.filterMap_eq_nil_iff.mpr fun e he => ?_
  have := List.all_eq_true.mp h e he
  exact Option.isNone_iff_eq_none.mp this

theorem ledgerGet_singleton (k key : Json) (v : String) :
    ledgerGet [(k, v)] key = if k = key then some v else none := by
  by_cases h : k = key <;> simp [ledgerGet, List.find?_cons, h]

/-- Distinct plan positions carry distinct ids when the id list has no
duplicates. -/
theorem stepIdOf_inj {es : List Json} (hnodup : (es.map stepId).Nodup)
    {i j : Nat} (hi : i < es.length) (hj : j < es.length)
    (heq : stepIdOf es i = stepIdOf es j) : i = j := by
  have hmi : i < (es.map stepId).length := by simpa using hi
  have hmj : j < (es.map stepId).length := by simpa using hj
  have hgete : (es.map stepId).get ⟨i, hmi⟩ = (es.map stepId).get ⟨j, hmj⟩ := by
    simp only [List.get_eq_getElem, List.getElem_map]
    rw [show stepId es[i] = stepIdOf es i from by
          rw [stepIdOf, List.getD_eq_getElem es Json.null hi],
        show stepId es[j] = stepIdOf es j from by
          rw [stepIdOf, List.getD_eq_getElem es Json.null hj], heq]
  have := List.Nodup.get_inj_iff hnodup |>.mp hgete
  simpa using this

/-! ## The cursor/ledger snapshot invariant (claim C3) -/

/-- The per-snapshot invariant: the cursor is within the plan and the
ledger holds an entry for plan index `i` exactly when the cursor has
passed `i`. -/
def snapInv (es : List Json) (p : Nat × List (Json × String)) : Prop :=
  p.1 ≤ es.length ∧
    ∀ i, i < es.length → ((ledgerGet p.2 (stepIdOf es i)).isSome = true ↔ i < p.1)

/-- The allowed transition between consecutive snapshots: the cursor
advances by exactly one and the ledger grows by appending exactly the
entry of the step the cursor passed, which was absent before. -/
def snapRel (es : List Json) (p q : Nat × List (Json × String)) : Prop :=
  q.1 = p.1 + 1 ∧ ledgerGet p.2 (stepIdOf es p.1) = none ∧
    ∃ out, q.2 = p.2 ++ [(stepIdOf es p.1, out)]

/-- Assembly step for the snapshot invariant: one successful recording
followed by the continuation loop. -/
theorem snapshots_assemble (env : Env) (es : List Json)
    (hnodup : (es.map stepId).Nodup)
    {n idx : Nat} {L L' : List (Json × String)} {step sid : Json} {out : String}
    {tr : List Event}
    (hidxlt : idx < es.length) (hstepeq : es[idx] = step)
    (hsid : pyGetItem step "id" = Except.ok sid) (hL' : L' = ledgerSet L sid out)
    (hI : ∀ i, i < es.length → ((ledgerGet L (stepIdOf es i)).isSome = true ↔ i < idx))
    (hsnap : snapshots tr =
      (idx + 1, L') :: snapshots (stepsLoop env es n (idx + 1) L').2)
    (IH : ∀ idx' L', idx' ≤ es.length →
      (∀ i, i < es.length → ((ledgerGet L' (stepIdOf es i)).isSome = true ↔ i < idx')) →
      (∀ p ∈ snapshots (stepsLoop env es n idx' L').2, snapInv es p) ∧
      List.Chain' (snapRel es) ((idx', L') :: snapshots (stepsLoop env es n idx' L').2)) :
    (∀ p ∈ snapshots tr, snapInv es p) ∧
    List.Chain' (snapRel es) ((idx, L) :: snapshots tr) := by
  subst hL'
  have hsid_eq : sid = stepIdOf es idx := by
    rw [stepIdOf, List.getD_eq_getElem es Json.null hidxlt, hstepeq, stepId, hsid]
  have hfresh : ledgerGet L sid = none := by
    rw [hsid_eq]
    cases hopt : ledgerGet L (stepIdOf es idx) with
    | none => rfl
    | some w =>
        have hs : (ledgerGet L (stepIdOf es idx)).isSome = true := by rw [hopt]; rfl
        exact absurd ((hI idx hidxlt).mp hs) (lt_irrefl idx)
  have hset : ledgerSet L sid out = L ++ [(sid, out)] := ledgerSet_fresh hfresh out
  have hI' : ∀ i, i < es.length →
      ((ledgerGet (ledgerSet L sid out) (stepIdOf es i)).isSome = true ↔ i < idx + 1) := by
    intro i hilen
    rw [hset, ledgerGet_append]
    cases hL : ledgerGet L (stepIdOf es i) with
    | some w =>
        have hlt : i < idx := (hI i hilen).mp (by rw [hL]; rfl)
        simp only [Option.map_some', Option.getD_some, Option.isSome_some]
        exact ⟨fun _ => by omega, fun _ => trivial⟩
    | none =>
        have hge : ¬ i < idx := fun hlt => by
          have := (hI i hilen).mpr hlt
          rw [hL] at this
          exact absurd this (by simp)
        simp only [Option.map_none', Option.getD_none, ledgerGet_singleton]
        by_cases heq : sid = stepIdOf es i
        · have hieq : idx = i := stepIdOf_inj hnodup hidxlt hilen (by rw [← hsid_eq, heq])
          rw [if_pos heq]
          simp only [Option.isSome_some]
          exact ⟨fun _ => by omega, fun _ => trivial⟩
        · rw [if_neg heq]
          simp only [Option.isSome_none, Bool.false_eq_true, false_iff]
          intro hlt
          have : i = idx := by omega
          exact heq (by rw [this, hsid_eq])
  obtain ⟨hinv', hchain'⟩ := IH (idx + 1) (ledgerSet L sid out) (by omega) hI'
  rw [hsnap]
  constructor
  · intro p hp
    rcases List.mem_cons.mp hp with rfl | hmem
    · exact ⟨by omega, hI'⟩
    · exact hinv' p hmem
  · refine List.chain'_cons.mpr ⟨?_, hchain'⟩
    refine ⟨rfl, by rw [← hsid_eq]; exact hfresh, out, ?_⟩
    rw [hset, hsid_eq]

/-- Every snapshot the main loop records satisfies the cursor/ledger
invariant, and consecutive snapshots (starting from the entry state) are
related by the single-step append transition — on every path, including
raising ones. -/
theorem stepsLoop_snapshots (env : Env) (es : List Json)
    (hnodup : (es.map stepId).Nodup) :
    ∀ n idx L, idx ≤ es.length →
      (∀ i, i < es.length → ((ledgerGet L (stepIdOf es i)).isSome = true ↔ i < idx)) →
      (∀ p ∈ snapshots (stepsLoop env es n idx L).2, snapInv es p) ∧
      List.Chain' (snapRel es) ((idx, L) :: snapshots (stepsLoop env es n idx L).2) := by
  intro n
  induction n with
  | zero =>
      intro idx L _ _
      rw [stepsLoop]
      exact ⟨by simp [snapshots, evm_pure_eq], by simp [snapshots, evm_pure_eq]⟩
  | succ n ih =>
      intro idx L hle hI
      cases hstep : es[idx]? with
      | none =>
          rw [stepsLoop, hstep]
          exact ⟨by simp [snapshots, evm_pure_eq], by simp [snapshots, evm_pure_eq]⟩
      | some step =>
          obtain ⟨hidxlt, hstepeq⟩ := List.getElem?_eq_some_iff.mp hstep
          rw [stepsLoop, hstep]
          obtain ⟨cr, hga⟩ : ∃ r, generate_code (env.coder idx) = r := ⟨_, rfl⟩
          cases cr with
          | error e =>
              simp only [evEmit_bind, evLift_bind_err hga]
              exact ⟨by simp [snapshots, snap?], by simp [snapshots, snap?]⟩
          | ok codeResult =>
          obtain ⟨r1, h1⟩ : ∃ r, pyGetItem codeResult "reasoning" = r := ⟨_, rfl⟩
          cases r1 with
          | error e =>
              simp only [evEmit_bind, evLift_bind_ok hga, evLift_bind_err h1]
              exact ⟨by simp [snapshots, snap?], by simp [snapshots, snap?]⟩
          | ok rsn =>
          obtain ⟨r2, h2⟩ : ∃ r, pyGetItem codeResult "code" = r := ⟨_, rfl⟩
          cases r2 with
          | error e =>
              simp only [evEmit_bind, evLift_bind_ok hga, evLift_bind_ok h1,
                evLift_bind_err h2]
              exact ⟨by simp [snapshots, snap?], by simp [snapshots, snap?]⟩
          | ok code =>
          obtain ⟨r3, h3⟩ : ∃ r, validate_result step
              (Json.obj [("output", Json.str (env.executor idx 0)),
                ("success", Json.bool true)]) (env.validator idx 0) = r := ⟨_, rfl⟩
          cases r3 with
          | error e =>
              simp only [evEmit_bind, evLift_bind_ok hga, evLift_bind_ok h1,
                evLift_bind_ok h2, prompt_bind, evLift_bind_err h3]
              exact ⟨by simp [snapshots, snap?], by simp [snapshots, snap?]⟩
          | ok v =>
          cases hv : v.1 with
          | true =>
              rcases recordResult_cases step L (env.executor idx 0) with
                ⟨e, he⟩ | ⟨sid, hsid, hhash, he⟩
              · simp only [evEmit_bind, evLift_bind_ok hga, evLift_bind_ok h1,
                  evLift_bind_ok h2, prompt_bind, evLift_bind_ok h3, hv, if_pos,
                  evm_bind_eq_err he]
                exact ⟨by simp [snapshots, snap?], by simp [snapshots, snap?]⟩
              · refine @snapshots_assemble env es hnodup n idx L
                  (ledgerSet L sid (env.executor idx 0)) step sid (env.executor idx 0) _
                  hidxlt hstepeq hsid rfl hI ?_ ih
                simp only [evEmit_bind, evLift_bind_ok hga, evLift_bind_ok h1,
                  evLift_bind_ok h2, prompt_bind, evLift_bind_ok h3, hv, if_pos,
                  evm_bind_eq_ok he]
                simp [snapshots, snap?]
          | false =>
              obtain ⟨dr, dev, hD⟩ : ∃ r e,
                  debugAttempts env idx step 2 codeResult v.2 = (r, e) :=
                ⟨_, _, rfl⟩
              have hdevnil : dev.filterMap snap? = [] := by
                have hall := debugAttempts_nosnap env idx step 2 codeResult v.2
                rw [hD] at hall
                simpa [snapshots] using snapshots_eq_nil hall
              cases dr with
              | error e =>
                  simp only [evEmit_bind, evLift_bind_ok hga, evLift_bind_ok h1,
                    evLift_bind_ok h2, prompt_bind, evLift_bind_ok h3, hv,
                    Bool.false_eq_true, if_false, evm_bind_eq_err hD]
                  exact ⟨by simp [snapshots, snap?, hdevnil],
                    by simp [snapshots, snap?, hdevnil]⟩
              | ok o =>
              cases o with
              | none =>
                  simp only [evEmit_bind, evLift_bind_ok hga, evLift_bind_ok h1,
                    evLift_bind_ok h2, prompt_bind, evLift_bind_ok h3, hv,
                    Bool.false_eq_true, if_false, evm_bind_eq_ok hD, evm_pure_eq]
                  exact ⟨by simp [snapshots, snap?, hdevnil],
                    by simp [snapshots, snap?, hdevnil]⟩
              | some out =>
                  rcases recordResult_cases step L out with
                    ⟨e, he⟩ | ⟨sid, hsid, hhash, he⟩
                  · simp only [evEmit_bind, evLift_bind_ok hga, evLift_bind_ok h1,
                      evLift_bind_ok h2, prompt_bind, evLift_bind_ok h3, hv,
                      Bool.false_eq_true, if_false, evm_bind_eq_ok hD,
                      evm_bind_eq_err he]
                    exact ⟨by simp [snapshots, snap?, hdevnil],
                      by simp [snapshots, snap?, hdevnil]⟩
                  · refine @snapshots_assemble env es hnodup n idx L
                      (ledgerSet L sid out) step sid out _
                      hidxlt hstepeq hsid rfl hI ?_ ih
                    simp only [evEmit_bind, evLift_bind_ok hga, evLift_bind_ok h1,
                      evLift_bind_ok h2, prompt_bind, evLift_bind_ok h3, hv,
                      Bool.false_eq_true, if_false, evm_bind_eq_ok hD,
                      evm_bind_eq_ok he]
                    simp [snapshots, snap?, hdevnil]

/-- C3: in every run whose plan decodes to steps with duplicate-free
ids, every cursor/ledger snapshot satisfies: the ledger holds an entry
for plan index `i` exactly when the cursor exceeds `i` (and the cursor
stays within the plan); and consecutive snapshots advance the cursor by
exactly one while growing the ledger only by appending the entry of the
step just passed, which was absent before — entries are written exactly
once, never rewritten, and the cursor never decreases. -/
theorem c3_ledger_cursor_invariant (env : Env) (req : String) (es : List Json)
    (hplan : plansTo env es) (hnodup : (es.map stepId).Nodup) :
    (∀ p ∈ snapshots (execute_request env req).2, snapInv es p) ∧
    List.Chain' (snapRel es) (snapshots (execute_request env req).2) := by
  obtain ⟨plan, stepsJ, hp, hs, hi⟩ := hplan
  have hzero : ∀ i, i < es.length →
      ((ledgerGet ([] : List (Json × String)) (stepIdOf es i)).isSome = true ↔ i < 0) := by
    intro i _
    simp [ledgerGet]
  obtain ⟨lr, ltr, hL⟩ : ∃ r t, stepsLoop env es es.length 0 [] = (r, t) := ⟨_, _, rfl⟩
  obtain ⟨hinv, hchain⟩ :=
    stepsLoop_snapshots env es hnodup es.length 0 [] (Nat.zero_le _) hzero
  rw [hL] at hinv hchain
  simp only [snapshots] at hinv hchain
  have hhead : snapInv es (0, ([] : List (Json × String))) :=
    ⟨Nat.zero_le _, by intro i _; simp [ledgerGet]⟩
  unfold execute_request
  rw [evLift_bind_ok hp, evLift_bind_ok hs, evLift_bind_ok hi]
  obtain ⟨c4, hchk⟩ : ∃ r, checkSteps es = r := ⟨_, rfl⟩
  cases c4 with
  | error e =>
      rw [evLift_bind_err hchk]
      exact ⟨by simp [snapshots], by simp [snapshots]⟩
  | ok u =>
      cases u
      rw [evLift_bind_ok hchk]
      cases lr with
      | error e =>
          simp only [evEmit_bind, evm_bind_eq_err hL]
          constructor
          · intro p hp'
            simp only [snapshots, List.filterMap_cons, snap?] at hp'
            rcases List.mem_cons.mp hp' with rfl | hmem
            · exact hhead
            · exact hinv p hmem
          · simpa [snapshots, snap?] using hchain
      | ok Lg =>
          obtain ⟨sr, hsum⟩ : ∃ r, generate_summary req Lg es env.summarizer = r :=
            ⟨_, rfl⟩
          cases sr with
          | error e =>
              simp only [evEmit_bind, evm_bind_eq_ok hL, evLift_bind_err hsum]
              constructor
              · intro p hp'
                simp only [snapshots, List.filterMap_cons, snap?, List.filterMap_append,
                  List.filterMap_nil, List.append_nil] at hp'
                rcases List.mem_cons.mp hp' with rfl | hmem
                · exact hhead
                · exact hinv p hmem
              · simpa [snapshots, snap?] using hchain
          | ok s =>
              simp only [evEmit_bind, evm_bind_eq_ok hL, evLift_bind_ok hsum,
                evm_pure_eq]
              constructor
              · intro p hp'
                simp only [snapshots, List.filterMap_cons, snap?, List.filterMap_append,
                  List.filterMap_nil, List.append_nil] at hp'
                rcases List.mem_cons.mp hp' with rfl | hmem
                · exact hhead
                · exact hinv p hmem
              · simpa [snapshots, snap?] using hchain

/-- C1 (counterexample): a malformed planner oracle answer makes
`execute_request` raise `ValueError` to the caller instead of returning
a summary report, refuting the claim that malformed component answers
still end in exactly one report and never a raised exception. -/
theorem c1_counterexample :
    (execute_request
      { planner := "bad", coder := fun _ => "", debugger := fun _ _ => "",
        validator := fun _ _ => "", executor := fun _ _ => "", summarizer := "" }
      "request").1 =
    Except.error (PyErr.valueError "Failed to parse Gemini response") := rfl

/-- C1 (amended): when the planner's answer decodes to a step plan whose
steps carry ids and descriptions with hashable ids, and the coder's and
debugger's answers are well-formed, `execute_request` terminates with a
summary report and exactly one summarization, whatever the validator,
executor and summarizer answer — but planner or coder malformation
raises instead (see the counterexample). -/
theorem c1_one_summary (env : Env) (req : String) (es : List Json)
    (hplan : plansTo env es) (hchk : checkSteps es = Except.ok ())
    (hids : stepIdsOk es)
    (hcoder : ∀ i, coderAnswerOk (env.coder i))
    (hdbg : ∀ i r, debuggerAnswerOk (env.debugger i r)) :
    ∃ s tr, execute_request env req = (Except.ok s, tr) ∧
      tr.count Event.summaryDone = 1 := by
  obtain ⟨L, trL, hloop, hnot⟩ :=
    stepsLoop_total env es hids hcoder hdbg es.length 0 []
  have hrun := @execute_request_run env req es hplan hchk hids L trL hloop
  refine ⟨_, _, hrun, ?_⟩
  have hz : trL.count Event.summaryDone = 0 := List.count_eq_zero.mpr hnot
  simp [List.count_cons, List.count_append, hz]

/-- C2: when every step before `k` validates on the first attempt and
step `k` never validates, the run performs exactly two repair attempts
in total, aborts step `k`, never begins any later step, and still ends
with a summary computed after the ledger of the `k` completed steps was
handed to summarization. -/
theorem c2_retry_bound (env : Env) (req : String) (es : List Json) (k : Nat)
    (hplan : plansTo env es) (hchk : checkSteps es = Except.ok ())
    (hk : k < es.length) (hids : stepIdsOk es)
    (hcoder : ∀ i, i ≤ k → coderAnswerOk (env.coder i))
    (hdbg : ∀ r, debuggerAnswerOk (env.debugger k r))
    (hpre : ∀ i, i < k → (verdictOf (env.validator i 0)).1 = true)
    (hbad : ∀ a, (verdictOf (env.validator k a)).1 = false) :
    ∃ tr, execute_request env req =
        (Except.ok (summaryValue req es env.summarizer), tr) ∧
      tr.countP (fun e => isDebugCall e) = 2 ∧ Event.aborted k ∈ tr ∧
      (∀ i, k < i → Event.stepBegin i ∉ tr) ∧
      Event.summaryCalled (runLedger env es k) ∈ tr := by
  obtain ⟨trL, hloop, hcount, habort, hbegin⟩ :=
    stepsLoop_c2 env es k hk hids hcoder hdbg hpre hbad k 0 (by omega)
  rw [Nat.sub_zero] at hloop
  have h0 : runLedger env es 0 = [] := rfl
  rw [h0] at hloop
  have hrun := @execute_request_run env req es hplan hchk hids (runLedger env es k) trL hloop
  refine ⟨_, hrun, ?_, ?_, ?_, ?_⟩
  · simp only [List.countP_cons, List.countP_append, List.countP_nil]
    simp [isDebugCall]
    exact hcount
  · simp [habort]
  · intro i hi
    simp [hbegin i hi]
  · simp

/-! ## Concrete runs -/

/-- A serialized object passes extraction untouched. -/
theorem extractJson_serialize (kvs : List (String × Json)) :
    extractJson (serialize (Json.obj kvs)) = serialize (Json.obj kvs) := by
  unfold extractJson
  rw [pyStrip_sobj, stripFences,
    stripFences_sobj kvs true (fun _ => sobj_head_ne_backtick kvs), pyStrip_sobj]
  simp [looksLikeJson, parseJsonList_serialize]

/-- The coder parses a serialized-object oracle answer back. -/
theorem generate_code_serialize (kvs : List (String × Json)) :
    generate_code (String.mk (serialize (Json.obj kvs))) = Except.ok (Json.obj kvs) := by
  unfold generate_code
  rw [show (String.mk (serialize (Json.obj kvs))).data = serialize (Json.obj kvs)
      from rfl]
  unfold cleanupText
  rw [stripFences, stripFences_sobj kvs true (fun _ => sobj_head_ne_backtick kvs),
    pyStrip_sobj, parseJsonList_serialize]

/-- The planner parses a serialized-object oracle answer back. -/
theorem plan_request_serialize (kvs : List (String × Json)) :
    plan_request (String.mk (serialize (Json.obj kvs))) = Except.ok (Json.obj kvs) := by
  unfold plan_request parseJson
  rw [show (String.mk (serialize (Json.obj kvs))).data = serialize (Json.obj kvs)
      from rfl, parseJsonList_serialize]

/-- Extraction of the empty oracle answer yields nothing parseable. -/
theorem parse_extract_empty : parseJsonList (extractJson ("".data)) = none := by
  have hplist : parseJsonList ([] : List Char) = none := by
    unfold parseJsonList
    rw [parseValue]
    rfl
  have hx : extractJson ("".data) = [] := by
    unfold extractJson
    rw [show pyStrip ("".data) = [] from rfl, stripFences, stripFencesAux_nil,
      show pyStrip [] = [] from rfl]
    simp [looksLikeJson, braceSub?, hplist]
  rw [hx, hplist]

/-- The empty oracle answer is a well-formed (fallback-triggering)
debugger answer. -/
theorem debuggerAnswerOk_empty : debuggerAnswerOk "" := by
  unfold debuggerAnswerOk
  rw [parse_extract_empty]
  trivial

/-- The fence cleanup leaves a lone closing brace untouched. -/
theorem cleanup_rbrace : cleanupText (['}'] : List Char) = ['}'] := by
  have h1 := scan_inert ['}'] [] true (by decide) ⟨[], rfl⟩ (fun _ => by decide)
  rw [stripFencesAux_nil] at h1
  simp only [List.append_nil] at h1
  unfold cleanupText
  rw [stripFences, h1]
  rfl

/-- A well-formed coder oracle answer. -/
def goodCoderAnswer : String :=
  String.mk (serialize (Json.obj [("reasoning", Json.str "r"), ("code", Json.str "c")]))

/-- A plan step with id and description. -/
def stepOne : Json := Json.obj [("id", Json.str "s1"), ("description", Json.str "d")]

/-- An environment whose plan is empty. -/
def envTriv : Env :=
  { planner := String.mk (serialize (Json.obj [("steps", Json.arr [])])),
    coder := fun _ => goodCoderAnswer,
    debugger := fun _ _ => "",
    validator := fun _ _ => "",
    executor := fun _ _ => "out",
    summarizer := "" }

/-- An environment with a one-step plan whose validator answer never
parses, so every verdict is invalid. -/
def envAbort : Env :=
  { planner := String.mk (serialize (Json.obj [("steps", Json.arr [stepOne])])),
    coder := fun _ => goodCoderAnswer,
    debugger := fun _ _ => "",
    validator := fun _ _ => "",
    executor := fun _ _ => "out",
    summarizer := "" }

theorem c1_one_summary_witness :
    ∃ s tr, execute_request envTriv "req" = (Except.ok s, tr) ∧
      tr.count Event.summaryDone = 1 :=
  c1_one_summary envTriv "req" []
    ⟨Json.obj [("steps", Json.arr [])], Json.arr [],
      plan_request_serialize [("steps", Json.arr [])], rfl, rfl⟩
    rfl
    (fun s hs => absurd hs (List.not_mem_nil s))
    (fun _ => ⟨[("reasoning", Json.str "r"), ("code", Json.str "c")], Json.str "r",
      Json.str "c", generate_code_serialize _, rfl, rfl⟩)
    (fun _ _ => debuggerAnswerOk_empty)

theorem c2_retry_bound_witness :
    ∃ tr, execute_request envAbort "req" =
        (Except.ok (summaryValue "req" [stepOne] envAbort.summarizer), tr) ∧
      tr.countP (fun e => isDebugCall e) = 2 ∧ Event.aborted 0 ∈ tr ∧
      (∀ i, 0 < i → Event.stepBegin i ∉ tr) ∧
      Event.summaryCalled (runLedger envAbort [stepOne] 0) ∈ tr :=
  c2_retry_bound envAbort "req" [stepOne] 0
    ⟨Json.obj [("steps", Json.arr [stepOne])], Json.arr [stepOne],
      plan_request_serialize [("steps", Json.arr [stepOne])], rfl, rfl⟩
    rfl
    (by decide)
    (fun s hs => by
      rw [List.mem_singleton.mp hs]
      exact ⟨[("id", Json.str "s1"), ("description", Json.str "d")], Json.str "s1",
        rfl, rfl, rfl⟩)
    (fun _ _ => ⟨[("reasoning", Json.str "r"), ("code", Json.str "c")], Json.str "r",
      Json.str "c", generate_code_serialize _, rfl, rfl⟩)
    (fun _ => debuggerAnswerOk_empty)
    (fun i hi => absurd hi (Nat.not_lt_zero i))
    (fun _ => rfl)

theorem c3_ledger_cursor_invariant_witness :
    (∀ p ∈ snapshots (execute_request envTriv "req").2, snapInv [] p) ∧
    List.Chain' (snapRel []) (snapshots (execute_request envTriv "req").2) :=
  c3_ledger_cursor_invariant envTriv "req" []
    ⟨Json.obj [("steps", Json.arr [])], Json.arr [],
      plan_request_serialize [("steps", Json.arr [])], rfl, rfl⟩
    (by simp)

/-! ## Per-agent claims -/

/-- C4 (counterexample): a single parse failure of the coder's oracle
answer already raises `ValueError` — there is no second parse attempt
and no local recovery in `generate_code`, refuting the "fails only after
parsing fails twice, single failure recovered locally" reading for the
coder. -/
theorem c4_counterexample :
    generate_code "\x7d" =
      Except.error (PyErr.valueError "CoderAgent: Failed to parse LLM response") := by
  unfold generate_code
  rw [show ("\x7d" : String).data = ['}'] from rfl, cleanup_rbrace]
  rfl

/-- C4 (amended): the two generation agents have asymmetric failure
policies — `generate_code` raises `ValueError` on its first and only
parse failure, while `debug_code` recovers a parse failure locally with
the safe fallback object and never raises on it. -/
theorem c4_single_failure_policy :
    (∀ raw : String, parseJsonList (cleanupText raw.data) = none →
      generate_code raw =
        Except.error (PyErr.valueError "CoderAgent: Failed to parse LLM response")) ∧
    (∀ (skvs lkvs : List (String × Json)) (raw : String),
      parseJsonList (extractJson raw.data) = none →
      ∃ fkvs, debug_code (Json.obj skvs) (Json.obj lkvs) raw =
        Except.ok (Json.obj fkvs)) := by
  constructor
  · intro raw h
    unfold generate_code
    rw [h]
  · intro skvs lkvs raw h
    unfold debug_code
    rw [h]
    exact ⟨_, rfl⟩

theorem c4_single_failure_policy_witness :
    generate_code "\x7d" =
      Except.error (PyErr.valueError "CoderAgent: Failed to parse LLM response") ∧
    ∃ fkvs, debug_code (Json.obj []) (Json.obj []) "" = Except.ok (Json.obj fkvs) :=
  ⟨c4_single_failure_policy.1 "\x7d"
      (by rw [show ("\x7d" : String).data = ['}'] from rfl, cleanup_rbrace]; rfl),
    c4_single_failure_policy.2 [] [] "" parse_extract_empty⟩

/-- The execution outcome as the spec describes it: raw output plus a
success flag reported by the external executor.  Modelled from the spec;
the source never decodes such a report. -/
structure ExecutorReport where
  raw_output : String
  succeeded : Bool

/-- Modelled from the spec: the executor's report as the response text
carried over the channel. -/
def encodeReport (r : ExecutorReport) : String :=
  String.mk (serialize (Json.obj [("output", Json.str r.raw_output),
    ("success", Json.bool r.succeeded)]))

/-- C5 (counterexample): the executor reports `succeeded = false`, yet
the outcome the engine records and passes to validation carries
`success = True` — the engine does not propagate executor-reported
success. -/
theorem c5_counterexample :
    (prompt_user_execution (Json.str "code")
        (encodeReport { raw_output := "boom", succeeded := false })).1 =
      Except.ok (Json.obj
        [("output", Json.str (encodeReport { raw_output := "boom", succeeded := false })),
         ("success", Json.bool true)]) ∧
    ({ raw_output := "boom", succeeded := false } : ExecutorReport).succeeded = false :=
  ⟨rfl, rfl⟩

/-- C5 (amended): for every executor response, the outcome recorded by
`_prompt_user_execution` is the raw response text with the success flag
hard-coded to `True`, independent of anything the executor reported. -/
theorem c5_success_hardcoded (code : Json) (response : String) :
    (prompt_user_execution code response).1 =
      Except.ok (Json.obj [("output", Json.str response),
        ("success", Json.bool true)]) ∧
    (prompt_user_execution code response).2 =
      [Event.execSend code, Event.execRecv response] :=
  ⟨rfl, rfl⟩

/-- C6: for dict-shaped step and outcome, when the validator's oracle
answer does not parse as a JSON dict, `validate_result` does not raise:
it returns `is_valid = false` with a reason beginning with
`"Parsing error: "`, giving the engine a decidable verdict. -/
theorem c6_validate_degrades (skvs ukvs : List (String × Json)) (raw : String)
    (h : ∀ kvs, parseJson raw ≠ some (Json.obj kvs)) :
    ∃ r, validate_result (Json.obj skvs) (Json.obj ukvs) raw =
        Except.ok (false, r) ∧
      ("Parsing error: ".data).isPrefixOf r.data = true := by
  refine ⟨"Parsing error: " ++ parseErrorDetail, ?_, ?_⟩
  · rw [validate_result_obj]
    unfold verdictOf
    cases hp : parseJson raw with
    | none => rfl
    | some j => cases j <;> first | exact absurd hp (h _) | rfl
  · decide

theorem c6_validate_degrades_witness :
    ∃ r, validate_result (Json.obj []) (Json.obj []) "garbage" =
        Except.ok (false, r) ∧
      ("Parsing error: ".data).isPrefixOf r.data = true :=
  c6_validate_degrades [] [] "garbage" (fun kvs h' => by
    rw [show parseJson "garbage" = none from rfl] at h'
    exact Option.noConfusion h')

/-- C7 (counterexample): with one planned step and an empty ledger, an
unparseable summarizer answer yields the fallback report whose
`final_outcome` is `"Unknown"` — not one of success/partial/failure —
and whose `warnings` list is empty even though the planned step has no
ledger entry. -/
theorem c7_counterexample :
    ∃ fkvs, generate_summary "req" [] [stepOne] "" = Except.ok (Json.obj fkvs) ∧
      getKey fkvs "final_outcome" = some (Json.str "Unknown") ∧
      (Json.str "Unknown" ≠ Json.str "success" ∧
        Json.str "Unknown" ≠ Json.str "partial" ∧
        Json.str "Unknown" ≠ Json.str "failure") ∧
      getKey fkvs "warnings" = some (Json.arr []) ∧
      ledgerGet [] (stepId stepOne) = none := by
  refine ⟨[("original_request", Json.str "req"),
    ("steps_completed", Json.arr [stepOne]),
    ("key_results", Json.str "LLM summary failed"),
    ("total_summary", Json.str "Failed"),
    ("final_outcome", Json.str "Unknown"),
    ("warnings", Json.arr [])], ?_, rfl, by decide, rfl, rfl⟩
  unfold generate_summary summaryValue
  rw [show parseJson "" = none from rfl]
  rfl

/-- C7 (amended): `generate_summary` returns a report when the planned
steps are dicts carrying hashable ids and descriptions (with an
unhashable id the prompt construction raises `TypeError` instead); on
summarizer parse failure the report is the fixed fallback object whose
`final_outcome` is `"Unknown"` — not one of success/partial/failure —
and whose `warnings` list is empty, regardless of which planned steps
are missing from the ledger. -/
theorem c7_summary_fallback (req : String) (L : List (Json × String))
    (es : List Json) (raw : String)
    (hids : stepIdsOk es) (hchk : checkSteps es = Except.ok ()) :
    generate_summary req L es raw = Except.ok (summaryValue req es raw) ∧
    (parseJson raw = none →
      summaryValue req es raw =
        Json.obj [("original_request", Json.str req),
          ("steps_completed", Json.arr es),
          ("key_results", Json.str "LLM summary failed"),
          ("total_summary", Json.str "Failed"),
          ("final_outcome", Json.str "Unknown"),
          ("warnings", Json.arr [])]) := by
  constructor
  · unfold generate_summary
    rw [summarySteps_ok L hids hchk]
    rfl
  · intro h
    unfold summaryValue
    rw [h]

theorem c7_summary_fallback_witness :
    (generate_summary "r" [] [stepOne] "" = Except.ok (summaryValue "r" [stepOne] "") ∧
    (parseJson "" = none →
      summaryValue "r" [stepOne] "" =
        Json.obj [("original_request", Json.str "r"),
          ("steps_completed", Json.arr [stepOne]),
          ("key_results", Json.str "LLM summary failed"),
          ("total_summary", Json.str "Failed"),
          ("final_outcome", Json.str "Unknown"),
          ("warnings", Json.arr [])])) :=
  c7_summary_fallback "r" [] [stepOne] ""
    (fun s hs => by
      rw [List.mem_singleton.mp hs]
      exact ⟨[("id", Json.str "s1"), ("description", Json.str "d")], Json.str "s1",
        rfl, rfl, rfl⟩)
    rfl

/-- C9: serializing an object and embedding it in arbitrary surrounding
whitespace and optional ```json fencing, then applying `_extract_json`
and parsing, yields the object again; and whenever the cleaned text does
not itself parse, extraction falls back to the first brace-delimited
substring (stripped), or to the cleaned text when there is none. -/
theorem c9_extraction_roundtrip (kvs : List (String × Json))
    (w0 w1 w2 w3 f1 f2 : List Char)
    (hw0 : wsOnly w0) (hw1 : wsOnly w1) (hw2 : wsOnly w2) (hw3 : wsOnly w3)
    (hf1 : f1 = [] ∨ f1 = ['`', '`', '`', 'j', 's', 'o', 'n'])
    (hf2 : f2 = [] ∨ f2 = ['`', '`', '`']) :
    parseJsonList (extractJson
        (w0 ++ f1 ++ w1 ++ serialize (Json.obj kvs) ++ w2 ++ f2 ++ w3)) =
      some (Json.obj kvs) ∧
    (∀ s : List Char, looksLikeJson (pyStrip (stripFences (pyStrip s))) = false →
      extractJson s =
        match braceSub? (pyStrip (stripFences (pyStrip s))) with
        | some m => pyStrip m
        | none => pyStrip (stripFences (pyStrip s))) := by
  constructor
  · rw [extractJson_embed kvs w0 w1 w2 w3 f1 f2 hw0 hw1 hw2 hw3 hf1 hf2,
      parseJsonList_serialize]
  · intro s hlook
    unfold extractJson
    simp only [hlook, Bool.false_eq_true, if_false]

theorem c9_extraction_roundtrip_witness :
    parseJsonList (extractJson
        (['\n'] ++ ['`', '`', '`', 'j', 's', 'o', 'n'] ++ [' '] ++
          serialize (Json.obj [("a", Json.num 1)]) ++ [] ++ ['`', '`', '`'] ++ [' '])) =
      some (Json.obj [("a", Json.num 1)]) ∧
    (∀ s : List Char, looksLikeJson (pyStrip (stripFences (pyStrip s))) = false →
      extractJson s =
        match braceSub? (pyStrip (stripFences (pyStrip s))) with
        | some m => pyStrip m
        | none => pyStrip (stripFences (pyStrip s))) :=
  c9_extraction_roundtrip [("a", Json.num 1)] ['\n'] [' '] [] [' ']
    ['`', '`', '`', 'j', 's', 'o', 'n'] ['`', '`', '`']
    (by unfold wsOnly; decide) (by unfold wsOnly; decide) (by unfold wsOnly; decide)
    (by unfold wsOnly; decide) (Or.inr rfl) (Or.inr rfl)

/-- C10: when the debugger oracle's answer cannot be parsed, `debug_code`
returns — never raises — the fallback repair: `fixed_code` is the prior
instruction's code (default `""`), `language` the prior language
(default `"python"`), `error_type` `"logic"`. -/
theorem c10_debug_fallback (skvs lkvs : List (String × Json)) (raw : String)
    (h : parseJsonList (extractJson raw.data) = none) :
    debug_code (Json.obj skvs) (Json.obj lkvs) raw =
      Except.ok (Json.obj
        [("step_id", (getKey skvs "id").getD (Json.str "unknown")),
         ("error_type", Json.str "logic"),
         ("reasoning",
           Json.str "LLM returned malformed JSON; falling back to original code."),
         ("fixed_code", (getKey lkvs "code").getD (Json.str "")),
         ("language", (getKey lkvs "language").getD (Json.str "python")),
         ("expected_output", (getKey lkvs "expected_output").getD (Json.str ""))]) := by
  unfold debug_code
  rw [h]
  rfl

theorem c10_debug_fallback_witness :
    debug_code (Json.obj [("id", Json.str "s1")])
        (Json.obj [("code", Json.str "c0")]) "" =
      Except.ok (Json.obj
        [("step_id",
           (getKey [("id", Json.str "s1")] "id").getD (Json.str "unknown")),
         ("error_type", Json.str "logic"),
         ("reasoning",
           Json.str "LLM returned malformed JSON; falling back to original code."),
         ("fixed_code",
           (getKey [("code", Json.str "c0")] "code").getD (Json.str "")),
         ("language",
           (getKey [("code", Json.str "c0")] "language").getD (Json.str "python")),
         ("expected_output",
           (getKey [("code", Json.str "c0")] "expected_output").getD
             (Json.str ""))]) :=
  c10_debug_fallback [("id", Json.str "s1")] [("code", Json.str "c0")] ""
    parse_extract_empty

end Cogniterm
